import Mathlib

/-!
Verification of the EAMA MBOX parsing core (`src/workers/mbox-parser.worker.ts`).

The worker operates on JavaScript strings.  We embed text as `List Char`
(ASCII inputs; JS `toLowerCase`/whitespace behaviour is modelled on the
ASCII fragment, which is all the parser's regexes distinguish).  Each
definition transcribes one function of the source; the export encoder,
whose implementation (`MBOXExporter.generateMBOXEntry`) is absent from
the repository, is modelled from the spec where noted.
-/

namespace EAMA

/-- Text is a list of characters; a line is a text span containing no
newline once produced by `splitLines`. -/
abbrev Text := List Char

/-- JS `\s` on the ASCII range: space, tab, newline, carriage return,
vertical tab, form feed. -/
def jsSpace (c : Char) : Bool :=
  c == ' ' || c == '\t' || c == '\n' || c == '\r' || c == '\x0b' || c == '\x0c'

/-- Horizontal whitespace `[ \t]` used by the folding regexes. -/
def isHT (c : Char) : Bool :=
  c == ' ' || c == '\t'

/-- Source `normalizeEOL`: `text.replace(/\r\n/g, '\n').replace(/\r/g, '\n')`,
fused into one left-to-right pass. -/
def normalizeEOL : Text → Text
  | [] => []
  | [c] => if c = '\r' then ['\n'] else [c]
  | c :: d :: t =>
    if c = '\r' then
      if d = '\n' then '\n' :: normalizeEOL t
      else '\n' :: normalizeEOL (d :: t)
    else c :: normalizeEOL (d :: t)

/-- JS `String.prototype.split('\n')`: the empty string yields `[""]`. -/
def splitLines : Text → List Text
  | [] => [[]]
  | c :: t =>
    if c = '\n' then [] :: splitLines t
    else
      match splitLines t with
      | [] => [[c]]
      | h :: r => (c :: h) :: r

/-- JS `Array.prototype.join('\n')`. -/
def joinLines : List Text → Text
  | [] => []
  | [l] => l
  | l :: ls => l ++ '\n' :: joinLines ls

/-- JS `String.prototype.trim()` (ASCII whitespace). -/
def trimChars (s : Text) : Text :=
  ((s.dropWhile jsSpace).reverse.dropWhile jsSpace).reverse

/-- Does the text start with a space or tab?  This is the test
`/^[ \t]/` used for folding continuations. -/
def startsHT : Text → Bool
  | [] => false
  | c :: _ => isHT c

/-- One left-to-right pass of `value.replace(/\r?\n[ \t]+/g, ' ')`:
a newline (optionally preceded by a carriage return) followed by a
nonempty run of spaces/tabs collapses to a single space.  The `inRun`
flag is set while consuming the matched space/tab run, so the scan is
structurally recursive. -/
def unfoldCore : Bool → Text → Text
  | _, [] => []
  | inRun, [c] => if inRun = true ∧ isHT c = true then [] else [c]
  | inRun, c :: d :: t =>
    if inRun = true ∧ isHT c = true then unfoldCore true (d :: t)
    else if c = '\n' ∧ isHT d = true then ' ' :: unfoldCore true (d :: t)
    else if c = '\r' ∧ d = '\n' ∧ startsHT t then ' ' :: unfoldCore true t
    else c :: unfoldCore false (d :: t)

/-- Source `unfoldHeader`: `value.replace(/\r?\n[ \t]+/g, ' ').trim()`. -/
def unfoldHeader (s : Text) : Text :=
  trimChars (unfoldCore false s)

/-- The literal `"From "`. -/
def fromMark : Text := ['F', 'r', 'o', 'm', ' ']

/-- Source `FROM_LINE_REGEX = /^From \S+.*$/`: the prefix `"From "` followed by
at least one non-whitespace character. -/
def isFromLine (l : Text) : Bool :=
  fromMark.isPrefixOf l &&
    (match l.drop 5 with
     | c :: _ => !jsSpace c
     | [] => false)

/-- A character admissible in a header name: the class `[^:\s]`. -/
def headerNameChar (c : Char) : Bool :=
  !(c == ':') && !jsSpace c

/-- Source `HEADER_REGEX = /^([^:\s]+):\s*(.*)$/` as an anchored match: the name is
the maximal run of name characters, which must be nonempty and followed by
a colon; the value is the remainder with leading whitespace stripped. -/
def headerMatch (l : Text) : Option (Text × Text) :=
  match l.drop (l.takeWhile headerNameChar).length with
  | c :: rest =>
    if l.takeWhile headerNameChar ≠ [] ∧ c = ':' then
      some (l.takeWhile headerNameChar, rest.dropWhile jsSpace)
    else none
  | [] => none

/-- JS `String.prototype.toLowerCase`, per character (ASCII). -/
def lowerName (n : Text) : Text := n.map Char.toLower

/-- Does the line match `^(>*)From `?  (`MBOXExporter.escapeFromLines`
match condition; with at least one `>` it is the `unescapeFromLines`
match condition `^>+From `.) -/
def startsFromAfterGt (l : Text) : Bool :=
  fromMark.isPrefixOf (l.dropWhile (fun c => c == '>'))

/-- Per-line effect of `content.replace(/^(>*From )/gm, '>$1')`
(`MBOXExporter.escapeFromLines` from the design document). -/
def escapeLine (l : Text) : Text :=
  if startsFromAfterGt l then '>' :: l else l

/-- Per-line effect of `text.replace(/^>+From /gm, m => m.substring(1))`
(`MBOXParser.unescapeFromLines`). -/
def unescapeLine (l : Text) : Text :=
  match l with
  | [] => []
  | c :: t => if c = '>' ∧ startsFromAfterGt t then t else c :: t

/-- Source `unescapeFromLines` lifted to text: the `gm`-anchored replacement acts
independently on each newline-separated line (matches never span lines and
the input is already EOL-normalized). -/
def unescapeFromLines (s : Text) : Text :=
  joinLines ((splitLines s).map unescapeLine)

/-- Source `escapeFromLines` lifted to text, same way. -/
def escapeFromLines (s : Text) : Text :=
  joinLines ((splitLines s).map escapeLine)

/-- The boolean the framer evaluates at each line:
`FROM_LINE_REGEX.test(line) && (i === 0 || lines[i - 1] === '')`, with the
previous line threaded instead of indexed (`none` at the first line). -/
def delimCheck (l : Text) (prev : Option Text) : Bool :=
  isFromLine l &&
    (match prev with
     | none => true
     | some p => p == [])

/-- The loop body of `splitMBOX`: state is the previous line, the current
record (`currentEmail`) and the `inEmail` flag; at the end the current
record is pushed when nonempty. -/
def splitLoop (prev : Option Text) (cur : List Text) (inE : Bool) :
    List Text → List (List Text)
  | [] => if cur.isEmpty then [] else [cur]
  | l :: ls =>
    if delimCheck l prev then
      (if cur.isEmpty then [] else [cur]) ++ splitLoop (some l) [l] true ls
    else if inE then splitLoop (some l) (cur ++ [l]) true ls
    else splitLoop (some l) cur false ls

/-- Source `splitMBOX` on the already-normalized, already-split line list. -/
def splitMBOXLines (lines : List Text) : List (List Text) :=
  splitLoop none [] false lines

/-- Source `MBOXParser.splitMBOX`: normalize, split into lines, frame, and return
each record as a joined string. -/
def splitMBOX (content : Text) : List Text :=
  (splitMBOXLines (splitLines (normalizeEOL content))).map joinLines

/-- The number of delimiter-line matches the framer finds, counted with the
same check `splitLoop` evaluates. -/
def countDelims (prev : Option Text) : List Text → Nat
  | [] => 0
  | l :: ls => (if delimCheck l prev then 1 else 0) + countDelims (some l) ls

/-- All lines from the first delimiter on (what the framer keeps). -/
def dropToDelim (prev : Option Text) : List Text → List Text
  | [] => []
  | l :: ls => if delimCheck l prev then l :: ls else dropToDelim (some l) ls

/-- The delimiter-line pattern as the spec words it: `"From "` followed by
a non-whitespace token (envelope sender) and trailing content. -/
def specFromLine (l : Text) : Bool :=
  fromMark.isPrefixOf l && !((l.drop 5).takeWhile (fun c => !jsSpace c)).isEmpty

/-- The framer as the spec words it (claim C3): scan line by line carrying
"am I at the container start or just after a blank line" and the currently
open record; a delimiter closes the open record (if any) and opens a new
one; every other line is appended to the open record. -/
def specScan (atBoundary : Bool) (openRec : Option (List Text)) :
    List Text → List (List Text)
  | [] =>
    match openRec with
    | some r => [r]
    | none => []
  | l :: ls =>
    if specFromLine l && atBoundary then
      (match openRec with
       | some r => [r]
       | none => []) ++ specScan (l == []) (some [l]) ls
    else
      match openRec with
      | some r => specScan (l == []) (some (r ++ [l])) ls
      | none => specScan (l == []) none ls

/-- Spec-side framing of a whole container. -/
def specFrame (lines : List Text) : List (List Text) :=
  specScan true none lines

/-- The parser's header table: insertion-ordered, one entry per lowercase
name, each entry carrying the values in arrival order (the
`Map<string, string[]>` of the source). -/
abbrev Headers := List (Text × List Text)

/-- The push step of `addHeader`: append the value to the name's entry,
creating the entry at the end on first occurrence. -/
def pushVal : Headers → Text → Text → Headers
  | [], k, u => [(k, [u])]
  | (k0, vs) :: t, k, u =>
    if k0 = k then (k0, vs ++ [u]) :: t else (k0, vs) :: pushVal t k u

/-- Source `MBOXParser.addHeader`: lowercase the name, unfold the raw value, push. -/
def addHeader (hs : Headers) (n v : Text) : Headers :=
  pushVal hs (lowerName n) (unfoldHeader v)

/-- Lookup `headers.get(name.toLowerCase())`, with `[]` for an absent name. -/
def lookupVals : Headers → Text → List Text
  | [], _ => []
  | (k0, vs) :: t, k => if k0 = k then vs else lookupVals t k

/-- Finalize the in-progress field: `addHeader(headers, currentHeader,
currentValue.join('\n'))`, a no-op when no field is in progress. -/
def finalizeHeader (hs : Headers) : Option (Text × List Text) → Headers
  | none => hs
  | some f => addHeader hs f.1 (joinLines f.2)

/-- The header loop of `parseEmail` over the lines after `headerStart`:
blank line finalizes and stops (returning the remaining lines as the body),
a space/tab-led line extends the in-progress field, a `name: value` line
finalizes the previous field and starts a new one, anything else is
skipped.  Returns the table and `some bodyLines` when a blank line was
seen, `none` otherwise (`bodyStart` stays at `headerStart`). -/
def headerLoop : List Text → Headers → Option (Text × List Text) →
    Headers × Option (List Text)
  | [], hs, _ => (hs, none)
  | l :: ls, hs, cur =>
    if l = [] then (finalizeHeader hs cur, some ls)
    else if startsHT l then
      headerLoop ls hs (cur.map (fun f => (f.1, f.2 ++ [l])))
    else
      match headerMatch l with
      | some (n, v) => headerLoop ls (finalizeHeader hs cur) (some (n, [v]))
      | none => headerLoop ls hs cur

/-- The fields the header loop finalizes when the block is terminated by a
blank line, in source order: reference for claims C4 and C8.  A `name:
value` line opens a field, continuations extend the open field, other
lines are skipped, and the final open field is finalized by the blank. -/
def specFields : List Text → Option (Text × List Text) →
    List (Text × List Text)
  | [], cur => cur.toList
  | l :: ls, cur =>
    if startsHT l then specFields ls (cur.map (fun f => (f.1, f.2 ++ [l])))
    else
      match headerMatch l with
      | some (n, v) => cur.toList ++ specFields ls (some (n, [v]))
      | none => specFields ls cur

/-- Same, for a block never terminated by a blank line: the final
in-progress field is never finalized (claim C10). -/
def specFieldsNB : List Text → Option (Text × List Text) →
    List (Text × List Text)
  | [], _ => []
  | l :: ls, cur =>
    if startsHT l then specFieldsNB ls (cur.map (fun f => (f.1, f.2 ++ [l])))
    else
      match headerMatch l with
      | some (n, v) => cur.toList ++ specFieldsNB ls (some (n, [v]))
      | none => specFieldsNB ls cur

/-- Finalizing one collected field. -/
def addFieldPair (hs : Headers) (f : Text × List Text) : Headers :=
  addHeader hs f.1 (joinLines f.2)

/-- Folding a collected field list into a header table. -/
def buildFrom (hs : Headers) (fs : List (Text × List Text)) : Headers :=
  fs.foldl addFieldPair hs

/-- The fields of a `ParsedEmail` the claims speak about.  `uid`,
`messageId` and `metadata` depend on `Date.now`, `Math.random` and the JS
`Date` parser and are outside every claim, so they are not modelled. -/
structure EmailM where
  headers : Headers
  bodyText : Text
  bodyRaw : Text
deriving DecidableEq, Repr

/-- Source `MBOXParser.parseEmail` on pre-split lines: skip the delimiter line if
present, run the header loop, extract and unescape the body.  The `try`
body of the source cannot throw on string input, so the function is total
and the `CRITICAL` catch branch is unreachable. -/
def parseEmailLines (lines : List Text) : EmailM :=
  let headerStart := if isFromLine (lines.headD []) then 1 else 0
  let hl := headerLoop (lines.drop headerStart) [] none
  let bodyLines :=
    match hl.2 with
    | some rest => rest
    | none => lines.drop headerStart
  let rawBody := joinLines bodyLines
  { headers := hl.1
    bodyText := unescapeFromLines rawBody
    bodyRaw := rawBody }

/-- Source `parseEmail` on a raw record string: normalize, split, parse. -/
def parseEmailChars (raw : Text) : EmailM :=
  parseEmailLines (splitLines (normalizeEOL raw))

/-- The `ParseError.type` union of the source. -/
inductive ErrKind where
  | malformedHeader
  | encodingError
  | fromLineError
  | critical
deriving DecidableEq, Repr

/-- A JS number as produced by `totalBytes / totalEmails`: a finite
rational, `Infinity`, or `NaN`. -/
inductive JSNum where
  | num : ℚ → JSNum
  | posInf : JSNum
  | nan : JSNum
deriving DecidableEq, Repr

/-- JS division of two non-negative numbers: `0/0` is `NaN`, `x/0` with
`x > 0` is `Infinity`. -/
def jsDiv (a b : ℚ) : JSNum :=
  if b = 0 then (if a = 0 then JSNum.nan else JSNum.posInf)
  else JSNum.num (a / b)

/-- The stats object of `ParseResult` (minus `parseTime`, which is wall
clock). -/
structure StatsM where
  totalEmails : Nat
  totalBytes : Nat
  avgEmailSize : JSNum
deriving DecidableEq, Repr

/-- The `ParseResult` of `MBOXParser.parse`. -/
structure ParseResultM where
  emails : List EmailM
  errors : List ErrKind
  stats : StatsM
deriving DecidableEq, Repr

/-- Source `MBOXParser.parse`: frame, parse each record, aggregate stats.  Every
`parseEmail` call returns a parsed email (its `try` body cannot throw), so
the error list — fed only by the unreachable `catch` and by nothing else in
the source — stays empty, and `avgEmailSize` is the unguarded division
`totalBytes / parsedEmails.length`. -/
def parseModel (content : Text) : ParseResultM :=
  let emails := (splitMBOX content).map parseEmailChars
  { emails := emails
    errors := []
    stats :=
      { totalEmails := emails.length
        totalBytes := content.length
        avgEmailSize := jsDiv content.length emails.length } }

/-- Join fragments with single spaces (spec wording of unfolding, claim
C8). -/
def joinWithSpace : List Text → Text
  | [] => []
  | [l] => l
  | l :: ls => l ++ ' ' :: joinWithSpace ls

/-- Modelled from the spec (§4.7 Export Encoder): one serialized header
line per value, `name: value`, names in original relative order.  The
implementation (`MBOXExporter.generateMBOXEntry`) is absent from the
repository. -/
def serializeHeaderLines (hs : Headers) : List Text :=
  hs.flatMap (fun e => e.2.map (fun v => e.1 ++ ':' :: ' ' :: v))

/-- Modelled from the spec: a synthesized minimal valid delimiter line
(§4.7: "else synthesize a minimal valid delimiter"; the parsed Message
does not retain the original envelope line). -/
def synthDelim : Text :=
  ('F' :: 'r' :: 'o' :: 'm' :: ' ' :: []) ++ "MAILER-DAEMON Thu Jan 1 00:00:00 1970".toList

/-- Modelled from the spec (§4.7): serialize one Message — delimiter line,
header lines, blank separator, body re-escaped with the Escape Codec
(`MBOXExporter.escapeFromLines`). -/
def exportOne (m : EmailM) : Text :=
  joinLines (synthDelim ::
    (serializeHeaderLines m.headers ++
      [] :: (splitLines m.bodyText).map escapeLine))

/-- Modelled from the spec (§4.7): "join records with a single blank line
separator". -/
def joinRecords : List Text → Text
  | [] => []
  | [r] => r
  | r :: rs => r ++ '\n' :: '\n' :: joinRecords rs

/-- Modelled from the spec (§4.7): export a selection of Messages with no
overlay edits. -/
def exportMBOX (ms : List EmailM) : Text :=
  joinRecords (ms.map exportOne)

/-- Every newline in the text is immediately followed by a space or tab —
the shape of a raw multi-fragment header value, under which unfolding
removes all line breaks. -/
def nlOk : Text → Bool
  | [] => true
  | c :: t => (!(c == '\n') || startsHT t) && nlOk t

/-- Well-formedness of a parsed header value: single-line, CR-free,
trimmed at both ends (fixed by a leading and by a trailing
whitespace-strip). -/
def wfValue (v : Text) : Bool :=
  !v.contains '\n' && !v.contains '\r' &&
    v.dropWhile jsSpace == v && v.reverse.dropWhile jsSpace == v.reverse

/-- Well-formedness of a parsed header name: nonempty, lowercase-fixed,
made of `[^:\s]` characters. -/
def wfName (k : Text) : Bool :=
  !k.isEmpty && lowerName k == k && k.all headerNameChar

/-- Well-formedness of a parsed Message: every header entry has a
well-formed name, at least one value, well-formed values; names are
distinct; the body is CR-free.  `parseModel` only produces such
Messages. -/
def entryWF (e : Text × List Text) : Bool :=
  wfName e.1 && !e.2.isEmpty && e.2.all wfValue

def wfHeaders (hs : Headers) : Bool :=
  hs.all entryWF && decide (hs.map Prod.fst).Nodup

def wfEmail (m : EmailM) : Bool :=
  wfHeaders m.headers && !m.bodyText.contains '\r'

/-- Predicate "first line of the container or immediately preceded by a blank line",
on the threaded previous line. -/
def prevBoundary : Option Text → Bool
  | none => true
  | some p => p == []

/-- Invariant carried for the in-progress field of the header loop: the
name is a nonempty run of name characters, the fragments are nonempty,
newline- and CR-free, and every fragment after the first starts with a
space or tab. -/
def wfCur : Option (Text × List Text) → Prop
  | none => True
  | some f => f.1 ≠ [] ∧ (∀ c ∈ f.1, headerNameChar c = true) ∧
      f.2 ≠ [] ∧ (∀ l ∈ f.2, '\n' ∉ l ∧ '\r' ∉ l) ∧
      (∀ l ∈ f.2.tail, startsHT l = true)

/-- One serialized physical header line, `name: value`. -/
def encHeaderLine (p : Text × Text) : Text :=
  p.1 ++ ':' :: ' ' :: p.2

/-- The (name, value) pairs of a header table, flattened in order. -/
def pairsOf (hs : Headers) : List (Text × Text) :=
  hs.flatMap (fun e => e.2.map (fun v => (e.1, v)))

/-- A default Message used as a fallback for list indexing in closed
statements. -/
def defaultEmail : EmailM :=
  { headers := [], bodyText := [], bodyRaw := [] }

/-- Sample container with one message (witness input). -/
def sampleC1 : Text :=
  "From a@b x\nSubject: hi\n\nBody line".toList

/-- Sample container with two delimiter-bounded messages (counterexample
input for the multi-message round trip). -/
def sampleC1x : Text :=
  "From a@b x\nSubject: s\n\nB1\n\nFrom c@d y\nSubject: t\n\nB2".toList

/-- Sample body text with an escaped From line (witness input). -/
def sampleC2 : Text :=
  ">From x\nhello".toList

/-- Sample header block: three Received lines around a Subject (witness
input). -/
def sampleC4 : List Text :=
  ["Received: a".toList, "Received: b".toList, "Subject: s".toList,
    "Received: c".toList]

/-- Sample container whose second header line lacks a colon (failing
input for the MalformedHeader claim). -/
def sampleC5 : Text :=
  "From a@b x\nSubject: ok\nNOCOLON\nX-Other: v\n\nbody".toList

/-- Sample container with leading non-delimiter content (counterexample
input). -/
def sampleC6 : Text :=
  "garbage\n\nFrom a@b x\nSubject: s\n\nbody".toList

/-- Sample folded-header continuations: two space/tab indented fragments
(witness input). -/
def sampleC8conts : List (Text × Text) :=
  [(" ".toList, "B".toList), ("\t ".toList, "C".toList)]

/-- Sample header-only record with no blank line (witness input). -/
def sampleC10 : List Text :=
  ["Subject: hi".toList, "X-Last: v".toList]

theorem splitLines_ne_nil (s : Text) : splitLines s ≠ [] := by
  cases s with
  | nil => simp [splitLines]
  | cons c t =>
    simp only [splitLines]
    split
    · simp
    · split <;> simp

theorem joinLines_cons (l : Text) (ls : List Text) (h : ls ≠ []) :
    joinLines (l :: ls) = l ++ '\n' :: joinLines ls := by
  cases ls with
  | nil => exact absurd rfl h
  | cons a r => rfl

theorem joinLines_splitLines (s : Text) : joinLines (splitLines s) = s := by
  induction s with
  | nil => rfl
  | cons c t ih =>
    simp only [splitLines]
    split
    · rename_i hc
      subst hc
      rw [joinLines_cons _ _ (splitLines_ne_nil t), ih]
      rfl
    · rcases h : splitLines t with _ | ⟨h1, r⟩
      · exact absurd h (splitLines_ne_nil t)
      · rw [h] at ih
        cases r with
        | nil => simpa [joinLines] using congrArg (c :: ·) ih
        | cons r1 rr =>
          rw [joinLines_cons _ _ (by simp)] at ih ⊢
          simpa using ih

theorem splitLines_no_newline (s : Text) :
    ∀ l ∈ splitLines s, '\n' ∉ l := by
  induction s with
  | nil => simp [splitLines]
  | cons c t ih =>
    simp only [splitLines]
    split
    · intro l hl
      simp only [List.mem_cons] at hl
      rcases hl with hl | hl
      · simp [hl]
      · exact ih l hl
    · rename_i hc
      rcases h : splitLines t with _ | ⟨h1, r⟩
      · exact absurd h (splitLines_ne_nil t)
      · rw [h] at ih
        intro l hl
        simp only [List.mem_cons] at hl
        rcases hl with hl | hl
        · subst hl
          intro hmem
          simp only [List.mem_cons] at hmem
          rcases hmem with hmem | hmem
          · exact hc hmem.symm
          · exact ih h1 (by simp) hmem
        · exact ih l (by simp [hl])

theorem splitLines_single (l : Text) (hl : '\n' ∉ l) : splitLines l = [l] := by
  induction l with
  | nil => rfl
  | cons c t ih =>
    simp only [splitLines]
    rw [if_neg (by intro h; exact hl (by simp [h]))]
    rw [ih (by intro h; exact hl (by simp [h]))]

theorem splitLines_append_nl (l : Text) (hl : '\n' ∉ l) (s : Text) :
    splitLines (l ++ '\n' :: s) = l :: splitLines s := by
  induction l with
  | nil => simp [splitLines]
  | cons c t ih =>
    simp only [List.cons_append, splitLines]
    rw [if_neg (by intro h; exact hl (by simp [h]))]
    rw [List.append_eq, ih (by intro h; exact hl (by simp [h]))]

theorem splitLines_joinLines (ls : List Text) (hne : ls ≠ [])
    (hnl : ∀ l ∈ ls, '\n' ∉ l) : splitLines (joinLines ls) = ls := by
  induction ls with
  | nil => exact absurd rfl hne
  | cons l rest ih =>
    cases rest with
    | nil => exact splitLines_single l (hnl l (by simp))
    | cons l2 rest2 =>
      rw [joinLines_cons _ _ (by simp)]
      rw [splitLines_append_nl l (hnl l (by simp))]
      rw [ih (by simp) (fun x hx => hnl x (by simp [hx]))]

theorem normalizeEOL_no_cr (s : Text) : '\r' ∉ normalizeEOL s := by
  induction s using normalizeEOL.induct with
  | case1 => simp [normalizeEOL]
  | case2 => simp [normalizeEOL]
  | case3 c hc =>
    simp only [normalizeEOL, if_neg hc]
    intro hmem
    simp only [List.mem_singleton] at hmem
    exact hc hmem.symm
  | case4 t ih =>
    simp only [normalizeEOL, if_pos rfl, ite_true]
    intro hmem
    rcases List.mem_cons.1 hmem with hmem | hmem
    · exact absurd hmem.symm (by decide)
    · exact ih hmem
  | case5 d t hd ih =>
    simp only [normalizeEOL, if_pos rfl, ite_true, if_neg hd]
    intro hmem
    rcases List.mem_cons.1 hmem with hmem | hmem
    · exact absurd hmem.symm (by decide)
    · exact ih hmem
  | case6 c d t hc ih =>
    simp only [normalizeEOL, if_neg hc]
    intro hmem
    simp only [List.mem_cons] at hmem
    rcases hmem with hmem | hmem
    · exact hc hmem.symm
    · exact ih hmem

theorem normalizeEOL_eq_self (s : Text) (h : '\r' ∉ s) : normalizeEOL s = s := by
  induction s using normalizeEOL.induct with
  | case1 => rfl
  | case2 => exact absurd (by simp) h
  | case3 c hc => simp [normalizeEOL, if_neg hc]
  | case4 t ih => exact absurd (by simp) h
  | case5 d t hd ih => exact absurd (by simp) h
  | case6 c d t hc ih =>
    simp only [normalizeEOL, if_neg hc]
    rw [ih (by intro hm; exact h (by simp [hm]))]

theorem startsFromAfterGt_cons_gt (t : Text) :
    startsFromAfterGt ('>' :: t) = startsFromAfterGt t := by
  simp [startsFromAfterGt, List.dropWhile]

theorem startsFromAfterGt_of_mark (l : Text) (h : fromMark.isPrefixOf l = true) :
    startsFromAfterGt l = true := by
  match l with
  | [] => simp [fromMark, List.isPrefixOf] at h
  | c :: t =>
    have hc : c = 'F' := by
      simp only [fromMark, List.isPrefixOf, Bool.and_eq_true, beq_iff_eq] at h
      exact h.1.symm
    subst hc
    simpa [startsFromAfterGt, List.dropWhile] using h

theorem unescapeLine_escapeLine (l : Text) :
    unescapeLine (escapeLine l) = l := by
  by_cases h : startsFromAfterGt l = true
  · simp only [escapeLine, if_pos h]
    simp [unescapeLine, h]
  · simp only [escapeLine, if_neg h]
    match l with
    | [] => rfl
    | c :: t =>
      simp only [unescapeLine]
      rw [if_neg]
      intro hcontra
      rcases hcontra with ⟨hc, hg⟩
      subst hc
      rw [startsFromAfterGt_cons_gt] at h
      exact h hg

theorem escapeLine_unescapeLine (l : Text)
    (h : fromMark.isPrefixOf l = false) :
    escapeLine (unescapeLine l) = l := by
  match l with
  | [] => rfl
  | c :: t =>
    simp only [unescapeLine]
    by_cases hc : c = '>' ∧ startsFromAfterGt t = true
    · rw [if_pos hc]
      simp only [escapeLine]
      rw [if_pos hc.2]
      rw [hc.1]
    · rw [if_neg (by simpa using hc)]
      simp only [escapeLine]
      rw [if_neg]
      intro hg
      by_cases hcc : c = '>'
      · subst hcc
        rw [startsFromAfterGt_cons_gt] at hg
        exact hc ⟨rfl, hg⟩
      · have hdw : (c :: t).dropWhile (fun d => d == '>') = c :: t := by
          simp [List.dropWhile_cons, hcc]
        rw [startsFromAfterGt, hdw] at hg
        rw [hg] at h
        simp at h

theorem escapeLine_no_nl (l : Text) (h : '\n' ∉ l) : '\n' ∉ escapeLine l := by
  simp only [escapeLine]
  split
  · intro hm
    rcases List.mem_cons.1 hm with hm | hm
    · exact absurd hm.symm (by decide)
    · exact h hm
  · exact h

theorem unescapeLine_no_nl (l : Text) (h : '\n' ∉ l) : '\n' ∉ unescapeLine l := by
  match l with
  | [] => simp [unescapeLine]
  | c :: t =>
    simp only [unescapeLine]
    split
    · exact fun hm => h (by simp [hm])
    · exact h

theorem unescape_escape_text (s : Text) :
    unescapeFromLines (escapeFromLines s) = s := by
  unfold unescapeFromLines escapeFromLines
  rw [splitLines_joinLines _ (by simpa using splitLines_ne_nil s)
    (by
      intro l hl
      rcases List.mem_map.1 hl with ⟨x, hx, hxe⟩
      exact hxe ▸ escapeLine_no_nl x (splitLines_no_newline s x hx))]
  rw [List.map_map]
  have : (unescapeLine ∘ escapeLine) = id := by
    funext x
    exact unescapeLine_escapeLine x
  rw [this, List.map_id]
  exact joinLines_splitLines s

theorem escape_unescape_text (s : Text)
    (h : ∀ l ∈ splitLines s, fromMark.isPrefixOf l = false) :
    escapeFromLines (unescapeFromLines s) = s := by
  unfold unescapeFromLines escapeFromLines
  rw [splitLines_joinLines _ (by simpa using splitLines_ne_nil s)
    (by
      intro l hl
      rcases List.mem_map.1 hl with ⟨x, hx, hxe⟩
      exact hxe ▸ unescapeLine_no_nl x (splitLines_no_newline s x hx))]
  rw [List.map_map]
  have : ∀ l ∈ splitLines s, (escapeLine ∘ unescapeLine) l = id l := by
    intro l hl
    exact escapeLine_unescapeLine l (h l hl)
  rw [List.map_congr_left this, List.map_id]
  exact joinLines_splitLines s

theorem delimCheck_eq (l : Text) (prev : Option Text) :
    delimCheck l prev = (isFromLine l && prevBoundary prev) := by
  cases prev <;> rfl

theorem specFromLine_eq_isFromLine (l : Text) :
    specFromLine l = isFromLine l := by
  simp only [specFromLine, isFromLine]
  cases hpre : fromMark.isPrefixOf l
  · simp
  · simp only [Bool.true_and]
    cases h : l.drop 5 with
    | nil => simp [List.takeWhile]
    | cons c u =>
      simp only [List.takeWhile_cons]
      by_cases hc : jsSpace c = true
      · simp [hc]
      · simp only [Bool.not_eq_true] at hc
        simp [hc]

theorem splitLoop_eq_specScan (ls : List Text) :
    ∀ (prev : Option Text) (cur : List Text) (inE : Bool),
    (inE = true ↔ cur ≠ []) →
    splitLoop prev cur inE ls =
      specScan (prevBoundary prev) (if inE then some cur else none) ls := by
  induction ls with
  | nil =>
    intro prev cur inE hinv
    simp only [splitLoop, specScan]
    cases inE with
    | true =>
      have : cur ≠ [] := hinv.1 rfl
      simp [List.isEmpty_eq_true, this]
    | false =>
      have : cur = [] := by
        by_contra hne
        exact absurd (hinv.2 hne) (by simp)
      simp [this]
  | cons l ls ih =>
    intro prev cur inE hinv
    simp only [splitLoop, specScan]
    rw [delimCheck_eq, specFromLine_eq_isFromLine]
    by_cases hd : (isFromLine l && prevBoundary prev) = true
    · rw [if_pos hd, if_pos hd]
      have hrec := ih (some l) [l] true (by simp)
      rw [hrec]
      congr 1
      cases inE with
      | true =>
        have : cur ≠ [] := hinv.1 rfl
        simp [List.isEmpty_eq_true, this]
      | false =>
        have : cur = [] := by
          by_contra hne
          exact absurd (hinv.2 hne) (by simp)
        simp [this]
    · rw [if_neg hd, if_neg hd]
      cases inE with
      | true =>
        have hcur : cur ≠ [] := hinv.1 rfl
        simp only [if_true]
        rw [ih (some l) (cur ++ [l]) true (by simp)]
        rfl
      | false =>
        have hcur : cur = [] := by
          by_contra hne
          exact absurd (hinv.2 hne) (by simp)
        simp only [Bool.false_eq_true, if_false]
        rw [ih (some l) cur false (by simp [hcur])]
        rfl

theorem splitLoop_length (ls : List Text) :
    ∀ (prev : Option Text) (cur : List Text) (inE : Bool),
    (inE = true ↔ cur ≠ []) →
    (splitLoop prev cur inE ls).length =
      countDelims prev ls + (if cur.isEmpty then 0 else 1) := by
  induction ls with
  | nil =>
    intro prev cur inE hinv
    simp only [splitLoop, countDelims]
    split <;> simp
  | cons l ls ih =>
    intro prev cur inE hinv
    simp only [splitLoop, countDelims]
    by_cases hd : delimCheck l prev = true
    · rw [if_pos hd, if_pos hd]
      rw [List.length_append, ih (some l) [l] true (by simp)]
      cases hc : cur.isEmpty <;> simp <;> omega
    · rw [if_neg hd, if_neg hd]
      cases inE with
      | true =>
        have hcur : cur ≠ [] := hinv.1 rfl
        simp only [if_true]
        rw [ih (some l) (cur ++ [l]) true (by simp)]
        have h1 : cur.isEmpty = false := by
          cases cur
          · exact absurd rfl hcur
          · rfl
        have h2 : (cur ++ [l]).isEmpty = false := by
          cases cur <;> rfl
        rw [h1, h2]
        omega
      | false =>
        have hcur : cur = [] := by
          by_contra hne
          exact absurd (hinv.2 hne) (by simp)
        simp only [Bool.false_eq_true, if_false]
        rw [ih (some l) cur false (by simp [hcur])]
        omega

theorem splitLoop_flatten_open (ls : List Text) :
    ∀ (prev : Option Text) (cur : List Text),
    (splitLoop prev cur true ls).flatten = cur ++ ls := by
  induction ls with
  | nil =>
    intro prev cur
    simp only [splitLoop]
    cases cur <;> simp
  | cons l ls ih =>
    intro prev cur
    simp only [splitLoop]
    by_cases hd : delimCheck l prev = true
    · rw [if_pos hd]
      rw [List.flatten_append, ih (some l) [l]]
      cases cur <;> simp
    · rw [if_neg hd]
      simp only [if_true]
      rw [ih (some l) (cur ++ [l])]
      simp

theorem splitLoop_flatten_closed (ls : List Text) :
    ∀ (prev : Option Text),
    (splitLoop prev [] false ls).flatten = dropToDelim prev ls := by
  induction ls with
  | nil => intro prev; simp [splitLoop, dropToDelim]
  | cons l ls ih =>
    intro prev
    simp only [splitLoop, dropToDelim]
    by_cases hd : delimCheck l prev = true
    · rw [if_pos hd, if_pos hd]
      simpa using splitLoop_flatten_open ls (some l) [l]
    · rw [if_neg hd, if_neg hd]
      simp only [Bool.false_eq_true, if_false]
      exact ih (some l)

theorem lookupVals_pushVal (hs : Headers) (k0 u k : Text) :
    lookupVals (pushVal hs k0 u) k =
      if k0 = k then lookupVals hs k ++ [u] else lookupVals hs k := by
  induction hs with
  | nil =>
    simp only [pushVal, lookupVals]
    split <;> simp
  | cons e t ih =>
    match e with
    | (k1, vs) =>
      simp only [pushVal]
      by_cases h10 : k1 = k0
      · subst h10
        simp only [if_pos rfl, lookupVals]
        by_cases h0k : k1 = k
        · simp [h0k]
        · simp [h0k]
      · rw [if_neg h10]
        simp only [lookupVals]
        by_cases h1k : k1 = k
        · subst h1k
          simp [Ne.symm h10]
        · rw [if_neg h1k, if_neg h1k, ih]

theorem buildFrom_toList (hs : Headers) (cur : Option (Text × List Text)) :
    buildFrom hs cur.toList = finalizeHeader hs cur := by
  cases cur with
  | none => rfl
  | some f => rfl

theorem buildFrom_append (hs : Headers) (fs gs : List (Text × List Text)) :
    buildFrom hs (fs ++ gs) = buildFrom (buildFrom hs fs) gs :=
  List.foldl_append _ _ _ _

theorem lookupVals_buildFrom (fs : List (Text × List Text)) :
    ∀ (hs : Headers) (k : Text),
    lookupVals (buildFrom hs fs) k =
      lookupVals hs k ++
        (fs.filter (fun f => lowerName f.1 == k)).map
          (fun f => unfoldHeader (joinLines f.2)) := by
  induction fs with
  | nil => intro hs k; simp [buildFrom]
  | cons f fs ih =>
    intro hs k
    have hstep : buildFrom hs (f :: fs) = buildFrom (addFieldPair hs f) fs := rfl
    rw [hstep, ih]
    simp only [List.filter_cons]
    by_cases hk : lowerName f.1 = k
    · rw [if_pos (by simpa using hk)]
      simp only [List.map_cons]
      have : lookupVals (addFieldPair hs f) k = lookupVals hs k ++
          [unfoldHeader (joinLines f.2)] := by
        rw [show addFieldPair hs f =
            pushVal hs (lowerName f.1) (unfoldHeader (joinLines f.2)) from rfl]
        rw [lookupVals_pushVal, if_pos hk]
      rw [this]
      simp
    · rw [if_neg (by simpa using hk)]
      have : lookupVals (addFieldPair hs f) k = lookupVals hs k := by
        rw [show addFieldPair hs f =
            pushVal hs (lowerName f.1) (unfoldHeader (joinLines f.2)) from rfl]
        rw [lookupVals_pushVal, if_neg hk]
      rw [this]

theorem headerLoop_blank (hl : List Text) :
    ∀ (bl : List Text) (hs : Headers) (cur : Option (Text × List Text)),
    [] ∉ hl →
    headerLoop (hl ++ [] :: bl) hs cur =
      (buildFrom hs (specFields hl cur), some bl) := by
  induction hl with
  | nil =>
    intro bl hs cur hnb
    simp only [List.nil_append, headerLoop, if_pos rfl, ite_true, specFields]
    rw [buildFrom_toList]
  | cons l hl ih =>
    intro bl hs cur hnb
    have hl_ne : l ≠ [] := by intro h; exact hnb (by simp [h])
    simp only [List.cons_append, headerLoop, specFields]
    rw [if_neg hl_ne]
    by_cases hht : startsHT l = true
    · rw [if_pos hht, if_pos hht]
      exact ih bl hs _ (by intro h; exact hnb (by simp [h]))
    · rw [if_neg hht, if_neg hht]
      cases hm : headerMatch l with
      | some nv =>
        match nv with
        | (n, v) =>
          simp only [List.append_eq]
          rw [ih bl _ _ (by intro h; exact hnb (by simp [h]))]
          rw [buildFrom_append, buildFrom_toList]
      | none =>
        simp only
        exact ih bl hs cur (by intro h; exact hnb (by simp [h]))

theorem headerLoop_noblank (ls : List Text) :
    ∀ (hs : Headers) (cur : Option (Text × List Text)),
    [] ∉ ls →
    headerLoop ls hs cur = (buildFrom hs (specFieldsNB ls cur), none) := by
  induction ls with
  | nil =>
    intro hs cur hnb
    simp [headerLoop, specFieldsNB, buildFrom]
  | cons l ls ih =>
    intro hs cur hnb
    have hl_ne : l ≠ [] := by intro h; exact hnb (by simp [h])
    simp only [headerLoop, specFieldsNB]
    rw [if_neg hl_ne]
    by_cases hht : startsHT l = true
    · rw [if_pos hht, if_pos hht]
      exact ih hs _ (by intro h; exact hnb (by simp [h]))
    · rw [if_neg hht, if_neg hht]
      cases hm : headerMatch l with
      | some nv =>
        match nv with
        | (n, v) =>
          simp only [List.append_eq]
          rw [ih _ _ (by intro h; exact hnb (by simp [h]))]
          rw [buildFrom_append, buildFrom_toList]
      | none =>
        simp only
        exact ih hs cur (by intro h; exact hnb (by simp [h]))

theorem parseEmailLines_delim_blank (d : Text) (hl bl : List Text)
    (hd : isFromLine d = true) (hnb : [] ∉ hl) :
    parseEmailLines (d :: (hl ++ [] :: bl)) =
      { headers := buildFrom [] (specFields hl none)
        bodyText := unescapeFromLines (joinLines bl)
        bodyRaw := joinLines bl } := by
  unfold parseEmailLines
  simp only [List.headD_cons, hd, if_pos rfl, ite_true, List.drop_succ_cons,
    List.drop_zero]
  rw [headerLoop_blank hl bl [] none hnb]

theorem parseEmailLines_delim_noblank (d : Text) (rest : List Text)
    (hd : isFromLine d = true) (hnb : [] ∉ rest) :
    parseEmailLines (d :: rest) =
      { headers := buildFrom [] (specFieldsNB rest none)
        bodyText := unescapeFromLines (joinLines rest)
        bodyRaw := joinLines rest } := by
  unfold parseEmailLines
  simp only [List.headD_cons, hd, if_pos rfl, ite_true, List.drop_succ_cons,
    List.drop_zero]
  rw [headerLoop_noblank rest [] none hnb]

theorem dropWhile_head_false {p : Char → Bool} :
    ∀ (x : Text) (c : Char) (t : Text), x.dropWhile p = c :: t → p c = false := by
  intro x
  induction x with
  | nil => intro c t h; simp [List.dropWhile] at h
  | cons a x ih =>
    intro c t h
    rw [List.dropWhile_cons] at h
    by_cases ha : p a = true
    · rw [if_pos ha] at h
      exact ih c t h
    · rw [if_neg ha] at h
      injection h with h1 h2
      subst h1
      simpa using ha

theorem dropWhile_self {p : Char → Bool} (x : Text) :
    (x.dropWhile p).dropWhile p = x.dropWhile p := by
  cases h : x.dropWhile p with
  | nil => rfl
  | cons c t =>
    rw [List.dropWhile_cons, if_neg (by simp [dropWhile_head_false x c t h])]

theorem trimChars_drop_fix (s : Text) :
    (trimChars s).dropWhile jsSpace = trimChars s := by
  unfold trimChars
  cases hB : ((s.dropWhile jsSpace).reverse.dropWhile jsSpace).reverse with
  | nil => rfl
  | cons c t =>
    rw [List.dropWhile_cons]
    rw [if_neg]
    intro hc
    have hpref : ((s.dropWhile jsSpace).reverse.dropWhile jsSpace).reverse <+:
        (s.dropWhile jsSpace).reverse.reverse :=
      (List.dropWhile_suffix jsSpace).reverse
    rw [List.reverse_reverse] at hpref
    rcases hpref with ⟨u, hu⟩
    rw [hB] at hu
    cases hA : s.dropWhile jsSpace with
    | nil => rw [hA] at hu; simp at hu
    | cons a x =>
      rw [hA] at hu
      have : a = c := by
        have := congrArg (fun l => l.headD 'x') hu.symm
        simpa using this
      subst this
      have := dropWhile_head_false s a x hA
      rw [this] at hc
      exact Bool.false_ne_true hc

theorem trimChars_rev_fix (s : Text) :
    (trimChars s).reverse.dropWhile jsSpace = (trimChars s).reverse := by
  unfold trimChars
  rw [List.reverse_reverse]
  exact dropWhile_self _

theorem trimChars_eq_self (v : Text)
    (h1 : v.dropWhile jsSpace = v) (h2 : v.reverse.dropWhile jsSpace = v.reverse) :
    trimChars v = v := by
  unfold trimChars
  rw [h1, h2, List.reverse_reverse]

theorem mem_trimChars (s : Text) (c : Char) (h : c ∈ trimChars s) : c ∈ s := by
  unfold trimChars at h
  rw [List.mem_reverse] at h
  have h2 := (List.dropWhile_suffix jsSpace).subset h
  rw [List.mem_reverse] at h2
  exact (List.dropWhile_suffix jsSpace).subset h2

theorem mem_joinLines (ls : List Text) (c : Char) (h : c ∈ joinLines ls) :
    c = '\n' ∨ ∃ l ∈ ls, c ∈ l := by
  induction ls with
  | nil => simp [joinLines] at h
  | cons l rest ih =>
    cases rest with
    | nil => exact Or.inr ⟨l, by simp, by simpa [joinLines] using h⟩
    | cons l2 rest2 =>
      rw [joinLines_cons _ _ (by simp)] at h
      rcases List.mem_append.1 h with h | h
      · exact Or.inr ⟨l, by simp, h⟩
      · rcases List.mem_cons.1 h with h | h
        · exact Or.inl h
        · rcases ih h with h | ⟨x, hx, hcx⟩
          · exact Or.inl h
          · exact Or.inr ⟨x, by simp [hx], hcx⟩

theorem joinWithSpace_cons (l : Text) (ls : List Text) (h : ls ≠ []) :
    joinWithSpace (l :: ls) = l ++ ' ' :: joinWithSpace ls := by
  cases ls with
  | nil => exact absurd rfl h
  | cons a r => rfl

theorem mem_joinWithSpace (ls : List Text) (c : Char)
    (h : c ∈ joinWithSpace ls) : c = ' ' ∨ ∃ l ∈ ls, c ∈ l := by
  induction ls with
  | nil => simp [joinWithSpace] at h
  | cons l rest ih =>
    cases rest with
    | nil => exact Or.inr ⟨l, by simp, by simpa [joinWithSpace] using h⟩
    | cons l2 rest2 =>
      rw [joinWithSpace_cons _ _ (by simp)] at h
      rcases List.mem_append.1 h with h | h
      · exact Or.inr ⟨l, by simp, h⟩
      · rcases List.mem_cons.1 h with h | h
        · exact Or.inl h
        · rcases ih h with h | ⟨x, hx, hcx⟩
          · exact Or.inl h
          · exact Or.inr ⟨x, by simp [hx], hcx⟩

theorem unfoldCore_cons_clean (c : Char) (t : Text) (hn : c ≠ '\n')
    (hr : c ≠ '\r') : unfoldCore false (c :: t) = c :: unfoldCore false t := by
  cases t with
  | nil => simp [unfoldCore]
  | cons d t2 =>
    rw [unfoldCore]
    rw [if_neg (by simp)]
    rw [if_neg (fun h => hn h.1)]
    rw [if_neg (fun h => hr h.1)]

theorem unfoldCore_append_clean (v : Text)
    (hv : ∀ c ∈ v, c ≠ '\n' ∧ c ≠ '\r') (rest : Text) :
    unfoldCore false (v ++ rest) = v ++ unfoldCore false rest := by
  induction v with
  | nil => simp
  | cons c t ih =>
    rw [List.cons_append]
    rw [unfoldCore_cons_clean c _ (hv c (by simp)).1 (hv c (by simp)).2]
    rw [ih (fun x hx => hv x (by simp [hx]))]
    rfl

theorem unfoldCore_clean (v : Text) (hv : ∀ c ∈ v, c ≠ '\n' ∧ c ≠ '\r') :
    unfoldCore false v = v := by
  have := unfoldCore_append_clean v hv []
  simpa [unfoldCore] using this

theorem dropWhile_isHT_append (w x : Text) (hw : ∀ c ∈ w, isHT c = true)
    (hx : startsHT x = false) : (w ++ x).dropWhile isHT = x := by
  induction w with
  | nil =>
    simp only [List.nil_append]
    cases x with
    | nil => rfl
    | cons c t =>
      rw [List.dropWhile_cons, if_neg]
      simpa [startsHT] using hx
  | cons c w ih =>
    rw [List.cons_append, List.dropWhile_cons, if_pos (hw c (by simp))]
    exact ih (fun d hd => hw d (by simp [hd]))

theorem unfoldCore_true_of_not_HT (ls : Text) (h : startsHT ls = false) :
    unfoldCore true ls = unfoldCore false ls := by
  cases ls with
  | nil => rfl
  | cons c t =>
    have hc : isHT c = false := by simpa [startsHT] using h
    cases t with
    | nil => simp [unfoldCore, hc]
    | cons d t2 =>
      rw [show unfoldCore true (c :: d :: t2) =
          if true = true ∧ isHT c = true then unfoldCore true (d :: t2)
          else if c = '\n' ∧ isHT d = true then ' ' :: unfoldCore true (d :: t2)
          else if c = '\r' ∧ d = '\n' ∧ startsHT t2 then
            ' ' :: unfoldCore true t2
          else c :: unfoldCore false (d :: t2) from rfl]
      rw [show unfoldCore false (c :: d :: t2) =
          if false = true ∧ isHT c = true then unfoldCore true (d :: t2)
          else if c = '\n' ∧ isHT d = true then ' ' :: unfoldCore true (d :: t2)
          else if c = '\r' ∧ d = '\n' ∧ startsHT t2 then
            ' ' :: unfoldCore true t2
          else c :: unfoldCore false (d :: t2) from rfl]
      rw [if_neg (show ¬(true = true ∧ isHT c = true) by simp [hc])]
      rw [if_neg (show ¬(false = true ∧ isHT c = true) by simp)]

theorem unfoldCore_skip_run (w : Text) (hw : ∀ c ∈ w, isHT c = true) :
    ∀ x, unfoldCore true (w ++ x) = unfoldCore true x := by
  induction w with
  | nil => intro x; rfl
  | cons a w ih =>
    intro x
    have ha : isHT a = true := hw a (by simp)
    cases hwx : w ++ x with
    | nil =>
      have hx : x = [] := (List.append_eq_nil.1 hwx).2
      rw [List.cons_append, hwx, hx]
      simp [unfoldCore, ha]
    | cons b t2 =>
      rw [List.cons_append, hwx]
      rw [show unfoldCore true (a :: b :: t2) =
          if true = true ∧ isHT a = true then unfoldCore true (b :: t2)
          else if a = '\n' ∧ isHT b = true then ' ' :: unfoldCore true (b :: t2)
          else if a = '\r' ∧ b = '\n' ∧ startsHT t2 then
            ' ' :: unfoldCore true t2
          else a :: unfoldCore false (b :: t2) from rfl]
      rw [if_pos ⟨rfl, ha⟩]
      rw [← hwx]
      exact ih (fun c hc => hw c (by simp [hc])) x

theorem unfoldCore_nl_fold (w x : Text) (hw1 : w ≠ [])
    (hw : ∀ c ∈ w, isHT c = true) (hx : startsHT x = false) :
    unfoldCore false ('\n' :: (w ++ x)) = ' ' :: unfoldCore false x := by
  cases w with
  | nil => exact absurd rfl hw1
  | cons a w2 =>
    rw [List.cons_append]
    rw [show unfoldCore false ('\n' :: a :: (w2 ++ x)) =
        if false = true ∧ isHT '\n' = true then unfoldCore true (a :: (w2 ++ x))
        else if ('\n' : Char) = '\n' ∧ isHT a = true then
          ' ' :: unfoldCore true (a :: (w2 ++ x))
        else if ('\n' : Char) = '\r' ∧ a = '\n' ∧ startsHT (w2 ++ x) then
          ' ' :: unfoldCore true (w2 ++ x)
        else '\n' :: unfoldCore false (a :: (w2 ++ x)) from rfl]
    rw [if_neg (by simp)]
    rw [if_pos ⟨rfl, hw a (by simp)⟩]
    rw [show a :: (w2 ++ x) = (a :: w2) ++ x from rfl]
    rw [unfoldCore_skip_run (a :: w2) hw x]
    rw [unfoldCore_true_of_not_HT x hx]

theorem startsHT_append_nl (x y : Text) (hx : startsHT x = false) :
    startsHT (x ++ '\n' :: y) = false := by
  cases x with
  | nil => simp [startsHT, isHT]
  | cons c t => simpa [startsHT] using hx

theorem unfoldCore_join (conts : List (Text × Text)) :
    ∀ v : Text, (∀ c ∈ v, c ≠ '\n' ∧ c ≠ '\r') →
    (∀ p ∈ conts, p.1 ≠ [] ∧ (∀ c ∈ p.1, isHT c = true) ∧
      (∀ c ∈ p.2, c ≠ '\n' ∧ c ≠ '\r') ∧ startsHT p.2 = false) →
    unfoldCore false (joinLines (v :: conts.map (fun p => p.1 ++ p.2)))
      = joinWithSpace (v :: conts.map Prod.snd) := by
  induction conts with
  | nil =>
    intro v hv _
    simpa [joinLines, joinWithSpace] using unfoldCore_clean v hv
  | cons p cs ih =>
    intro v hv hp
    have hp1 := hp p (by simp)
    rw [List.map_cons, joinLines_cons _ _ (by simp)]
    rw [unfoldCore_append_clean v hv]
    rw [List.map_cons, joinWithSpace_cons _ _ (by simp)]
    congr 1
    cases cs with
    | nil =>
      simp only [List.map_nil, joinLines, joinWithSpace]
      rw [unfoldCore_nl_fold p.1 p.2 hp1.1 hp1.2.1 hp1.2.2.2]
      rw [unfoldCore_clean p.2 hp1.2.2.1]
    | cons q cs2 =>
      rw [joinLines_cons _ _ (by simp)]
      rw [List.append_assoc]
      rw [unfoldCore_nl_fold p.1 _ hp1.1 hp1.2.1
        (startsHT_append_nl _ _ hp1.2.2.2)]
      have hrec := ih p.2 hp1.2.2.1 (fun r hr => hp r (by simp [hr]))
      rw [joinLines_cons _ _ (by simp)] at hrec
      rw [hrec]

theorem toNat_ofNat_valid (n : Nat) (h1 : 97 ≤ n) (h2 : n ≤ 122) :
    (Char.ofNat n).toNat = n := by
  unfold Char.ofNat
  rw [dif_pos (by left; omega)]
  rfl

theorem char_eq_of_toNat (a b : Char) (h : a.toNat = b.toNat) : a = b :=
  Char.eq_of_val_eq (UInt32.ext h)

theorem toLower_cases (c : Char) :
    (Char.toLower c = c ∧ ¬(65 ≤ c.toNat ∧ c.toNat ≤ 90)) ∨
      ((Char.toLower c).toNat = c.toNat + 32 ∧ 65 ≤ c.toNat ∧ c.toNat ≤ 90) := by
  unfold Char.toLower
  by_cases h : c.toNat ≥ 65 ∧ c.toNat ≤ 90
  · rw [if_pos h]
    exact Or.inr ⟨toNat_ofNat_valid _ (by omega) (by omega), h.1, h.2⟩
  · rw [if_neg h]
    exact Or.inl ⟨rfl, h⟩

theorem toLower_fix (d : Char) (h : ¬(65 ≤ d.toNat ∧ d.toNat ≤ 90)) :
    Char.toLower d = d := by
  unfold Char.toLower
  rw [if_neg (by omega)]

theorem toLower_idem (c : Char) :
    (Char.toLower c).toLower = Char.toLower c := by
  rcases toLower_cases c with ⟨he, hr⟩ | ⟨ht, h1, h2⟩
  · rw [he]
    exact he
  · exact toLower_fix _ (by omega)

theorem lowerName_idem (n : Text) : lowerName (lowerName n) = lowerName n := by
  unfold lowerName
  rw [List.map_map]
  exact List.map_congr_left (fun c _ => toLower_idem c)

theorem jsSpace_iff_toNat (c : Char) :
    jsSpace c = true ↔
      (c.toNat = 32 ∨ c.toNat = 9 ∨ c.toNat = 10 ∨ c.toNat = 13 ∨
        c.toNat = 11 ∨ c.toNat = 12) := by
  simp only [jsSpace, Bool.or_eq_true, beq_iff_eq]
  constructor
  · rintro (((((h | h) | h) | h) | h) | h) <;> subst h <;> simp
  · rintro (h | h | h | h | h | h)
    · exact Or.inl (Or.inl (Or.inl (Or.inl (Or.inl
        (char_eq_of_toNat c ' ' (by rw [h]; rfl))))))
    · exact Or.inl (Or.inl (Or.inl (Or.inl (Or.inr
        (char_eq_of_toNat c '\t' (by rw [h]; rfl))))))
    · exact Or.inl (Or.inl (Or.inl (Or.inr
        (char_eq_of_toNat c '\n' (by rw [h]; rfl)))))
    · exact Or.inl (Or.inl (Or.inr
        (char_eq_of_toNat c '\r' (by rw [h]; rfl))))
    · exact Or.inl (Or.inr (char_eq_of_toNat c '\x0b' (by rw [h]; rfl)))
    · exact Or.inr (char_eq_of_toNat c '\x0c' (by rw [h]; rfl))

theorem headerNameChar_iff_toNat (c : Char) :
    headerNameChar c = true ↔
      (c.toNat ≠ 58 ∧ c.toNat ≠ 32 ∧ c.toNat ≠ 9 ∧ c.toNat ≠ 10 ∧
        c.toNat ≠ 13 ∧ c.toNat ≠ 11 ∧ c.toNat ≠ 12) := by
  simp only [headerNameChar, Bool.and_eq_true, Bool.not_eq_true',
    beq_eq_false_iff_ne, ne_eq]
  constructor
  · rintro ⟨h1, h2⟩
    have h2n : ¬(c.toNat = 32 ∨ c.toNat = 9 ∨ c.toNat = 10 ∨ c.toNat = 13 ∨
        c.toNat = 11 ∨ c.toNat = 12) := by
      intro hc
      rw [← jsSpace_iff_toNat] at hc
      rw [hc] at h2
      exact absurd h2 (by simp)
    push_neg at h2n
    refine ⟨?_, h2n.1, h2n.2.1, h2n.2.2.1, h2n.2.2.2.1, h2n.2.2.2.2.1,
      h2n.2.2.2.2.2⟩
    intro hc
    exact h1 (char_eq_of_toNat c ':' (by rw [hc]; rfl))
  · rintro ⟨h1, h2, h3, h4, h5, h6, h7⟩
    constructor
    · intro hc
      rw [hc] at h1
      exact h1 rfl
    · cases hjs : jsSpace c with
      | false => rfl
      | true =>
        rcases (jsSpace_iff_toNat c).1 hjs with h | h | h | h | h | h <;>
          omega

theorem toLower_headerNameChar (c : Char) (h : headerNameChar c = true) :
    headerNameChar (Char.toLower c) = true := by
  rcases toLower_cases c with ⟨he, hr⟩ | ⟨ht, h1, h2⟩
  · rw [he]
    exact h
  · rw [headerNameChar_iff_toNat]
    omega

theorem nlOk_cons (c : Char) (t : Text) :
    nlOk (c :: t) = ((!(c == '\n') || startsHT t) && nlOk t) := rfl

theorem nlOk_of_no_nl (s : Text) (h : '\n' ∉ s) : nlOk s = true := by
  induction s with
  | nil => rfl
  | cons c t ih =>
    rw [nlOk_cons]
    have hc : c ≠ '\n' := by intro hc; exact h (by simp [hc])
    simp only [Bool.and_eq_true, Bool.or_eq_true]
    exact ⟨Or.inl (by simpa using hc), ih (fun hm => h (by simp [hm]))⟩

theorem nlOk_tail (c : Char) (t : Text) (h : nlOk (c :: t) = true) :
    nlOk t = true := by
  rw [nlOk_cons, Bool.and_eq_true] at h
  exact h.2

theorem nlOk_append_right (u : Text) :
    ∀ x, nlOk (u ++ x) = true → nlOk x = true := by
  induction u with
  | nil => intro x h; exact h
  | cons c u ih => intro x h; exact ih x (nlOk_tail _ _ h)

theorem nlOk_suffix (t x : Text) (hsuf : x <:+ t) (h : nlOk t = true) :
    nlOk x = true := by
  rcases hsuf with ⟨u, hu⟩
  exact nlOk_append_right u x (hu ▸ h)

theorem nlOk_append_no_nl (v : Text) (hv : '\n' ∉ v) :
    ∀ x, nlOk x = true → nlOk (v ++ x) = true := by
  induction v with
  | nil => intro x h; exact h
  | cons c v ih =>
    intro x h
    rw [List.cons_append, nlOk_cons]
    simp only [Bool.and_eq_true, Bool.or_eq_true]
    refine ⟨Or.inl ?_, ih (fun hm => hv (by simp [hm])) x h⟩
    simp only [Bool.not_eq_true', beq_eq_false_iff_ne, ne_eq]
    intro hc
    exact hv (by simp [hc])

theorem startsHT_append (c z : Text) (h : startsHT c = true) :
    startsHT (c ++ z) = true := by
  cases c with
  | nil => simp [startsHT] at h
  | cons a t => simpa [startsHT] using h

theorem nlOk_joinLines_frags (cs : List Text) :
    ∀ v : Text, '\n' ∉ v → (∀ l ∈ cs, '\n' ∉ l ∧ startsHT l = true) →
    nlOk (joinLines (v :: cs)) = true := by
  induction cs with
  | nil =>
    intro v hv _
    exact nlOk_of_no_nl v hv
  | cons c cs ih =>
    intro v hv hcs
    rw [joinLines_cons _ _ (by simp)]
    refine nlOk_append_no_nl v hv _ ?_
    rw [nlOk_cons]
    simp only [Bool.and_eq_true, Bool.or_eq_true]
    constructor
    · refine Or.inr ?_
      cases cs with
      | nil => simpa [joinLines] using (hcs c (by simp)).2
      | cons q cs2 =>
        rw [joinLines_cons _ _ (by simp)]
        exact startsHT_append _ _ (hcs c (by simp)).2
    · exact ih c (hcs c (by simp)).1 (fun l hl => hcs l (by simp [hl]))

theorem mem_unfoldCore (inRun : Bool) (s : Text) (c : Char)
    (h : c ∈ unfoldCore inRun s) : c = ' ' ∨ c ∈ s := by
  induction inRun, s using unfoldCore.induct with
  | case1 => simp [unfoldCore] at h
  | case2 inR d hcond =>
    rw [unfoldCore, if_pos hcond] at h
    simp at h
  | case3 inR d hcond =>
    rw [unfoldCore, if_neg hcond] at h
    rw [List.mem_singleton] at h
    subst h
    exact Or.inr (by simp)
  | case4 inR d e t hcond ih =>
    rw [unfoldCore, if_pos hcond] at h
    rcases ih h with h | h
    · exact Or.inl h
    · exact Or.inr (by simp [List.mem_cons.1 h])
  | case5 inR d e t hcond1 hcond2 ih =>
    rw [unfoldCore, if_neg hcond1, if_pos hcond2] at h
    rcases List.mem_cons.1 h with h | h
    · exact Or.inl h
    · rcases ih h with h | h
      · exact Or.inl h
      · exact Or.inr (by simp [List.mem_cons.1 h])
  | case6 inR d e t hcond1 hcond2 hcond3 ih =>
    rw [unfoldCore, if_neg hcond1, if_neg hcond2, if_pos hcond3] at h
    rcases List.mem_cons.1 h with h | h
    · exact Or.inl h
    · rcases ih h with h | h
      · exact Or.inl h
      · exact Or.inr (by simp [h])
  | case7 inR d e t hcond1 hcond2 hcond3 ih =>
    rw [unfoldCore, if_neg hcond1, if_neg hcond2, if_neg hcond3] at h
    rcases List.mem_cons.1 h with h | h
    · exact Or.inr (by simp [h])
    · rcases ih h with h | h
      · exact Or.inl h
      · exact Or.inr (by simp [List.mem_cons.1 h])

theorem unfoldCore_no_nl (inRun : Bool) (s : Text) (h : nlOk s = true) :
    '\n' ∉ unfoldCore inRun s := by
  induction inRun, s using unfoldCore.induct with
  | case1 => simp [unfoldCore]
  | case2 inR d hcond =>
    rw [unfoldCore, if_pos hcond]
    simp
  | case3 inR d hcond =>
    rw [unfoldCore, if_neg hcond]
    intro hm
    rw [List.mem_singleton] at hm
    subst hm
    rw [nlOk_cons] at h
    simp [startsHT] at h
  | case4 inR d e t hcond ih =>
    rw [unfoldCore, if_pos hcond]
    exact ih (nlOk_tail d _ h)
  | case5 inR d e t hcond1 hcond2 ih =>
    rw [unfoldCore, if_neg hcond1, if_pos hcond2]
    intro hm
    rcases List.mem_cons.1 hm with hm | hm
    · exact absurd hm.symm (by decide)
    · exact ih (nlOk_tail d _ h) hm
  | case6 inR d e t hcond1 hcond2 hcond3 ih =>
    rw [unfoldCore, if_neg hcond1, if_neg hcond2, if_pos hcond3]
    intro hm
    rcases List.mem_cons.1 hm with hm | hm
    · exact absurd hm.symm (by decide)
    · exact ih (nlOk_tail e _ (nlOk_tail d _ h)) hm
  | case7 inR d e t hcond1 hcond2 hcond3 ih =>
    rw [unfoldCore, if_neg hcond1, if_neg hcond2, if_neg hcond3]
    intro hm
    rcases List.mem_cons.1 hm with hm | hm
    · subst hm
      rw [nlOk_cons, Bool.and_eq_true, Bool.or_eq_true] at h
      rcases h.1 with h1 | h1
      · simp at h1
      · have h2 : isHT e = true := by simpa [startsHT] using h1
        exact hcond2 ⟨rfl, h2⟩
    · exact ih (nlOk_tail d _ h) hm

theorem splitLines_chars (s : Text) :
    ∀ l ∈ splitLines s, ∀ c ∈ l, c ∈ s := by
  induction s with
  | nil => simp [splitLines]
  | cons a t ih =>
    simp only [splitLines]
    split
    · intro l hl c hc
      rcases List.mem_cons.1 hl with hl | hl
      · subst hl; simp at hc
      · simp [ih l hl c hc]
    · rcases h : splitLines t with _ | ⟨h1, r⟩
      · exact absurd h (splitLines_ne_nil t)
      · rw [h] at ih
        intro l hl c hc
        rcases List.mem_cons.1 hl with hl | hl
        · subst hl
          rcases List.mem_cons.1 hc with hc | hc
          · simp [hc]
          · simp [ih h1 (by simp) c hc]
        · simp [ih l (by simp [hl]) c hc]

theorem wfValue_unfoldHeader (s : Text) (hnl : nlOk s = true)
    (hcr : '\r' ∉ s) : wfValue (unfoldHeader s) = true := by
  unfold wfValue unfoldHeader
  simp only [Bool.and_eq_true, Bool.not_eq_true', beq_iff_eq]
  refine ⟨⟨⟨?_, ?_⟩, trimChars_drop_fix _⟩, trimChars_rev_fix _⟩
  · have h1 : '\n' ∉ trimChars (unfoldCore false s) :=
      fun hm => unfoldCore_no_nl false s hnl (mem_trimChars _ _ hm)
    simpa using h1
  · have h1 : '\r' ∉ trimChars (unfoldCore false s) := by
      intro hm
      have h2 := mem_trimChars _ _ hm
      rcases mem_unfoldCore false s '\r' h2 with h3 | h3
      · exact absurd h3 (by decide)
      · exact hcr h3
    simpa using h1

theorem headerMatch_props (l n v : Text) (h : headerMatch l = some (n, v)) :
    n ≠ [] ∧ (∀ c ∈ n, headerNameChar c = true) ∧ (∀ c ∈ v, c ∈ l) := by
  unfold headerMatch at h
  rcases hdrop : l.drop (l.takeWhile headerNameChar).length with _ | ⟨c, rest⟩
  · rw [hdrop] at h
    simp at h
  · rw [hdrop] at h
    split at h
    · rename_i c2 rest2 hcons
      injection hcons with hc2 hrest2
      subst hc2
      subst hrest2
      split at h
      · rename_i hcond
        injection h with h1
        injection h1 with hn hv
        subst hn
        subst hv
        refine ⟨hcond.1, fun d hd => List.mem_takeWhile_imp hd, ?_⟩
        intro d hd
        have h2 := (List.dropWhile_suffix jsSpace).subset hd
        have h3 : d ∈ c :: rest := by simp [h2]
        rw [← hdrop] at h3
        exact List.drop_subset _ l h3
      · simp at h
    · rename_i hnil
      simp at hnil

theorem pushVal_keys (t : Headers) (k u : Text) :
    (pushVal t k u).map Prod.fst =
      if k ∈ t.map Prod.fst then t.map Prod.fst
      else t.map Prod.fst ++ [k] := by
  induction t with
  | nil => simp [pushVal]
  | cons e t ih =>
    match e with
    | (k0, vs) =>
      simp only [pushVal]
      by_cases h0 : k0 = k
      · subst h0
        rw [if_pos rfl]
        simp
      · rw [if_neg h0]
        simp only [List.map_cons, ih]
        by_cases hk : k ∈ t.map Prod.fst
        · rw [if_pos hk, if_pos (by simp [hk])]
        · rw [if_neg hk, if_neg (by simp [hk, Ne.symm h0])]
          simp

theorem pushVal_all (t : Headers) (k u : Text) (h1 : t.all entryWF = true)
    (hk : wfName k = true) (hu : wfValue u = true) :
    (pushVal t k u).all entryWF = true := by
  induction t with
  | nil => simp [pushVal, entryWF, hk, hu]
  | cons e t ih =>
    match e with
    | (k0, vs) =>
      simp only [List.all_cons, Bool.and_eq_true] at h1
      simp only [pushVal]
      by_cases h0 : k0 = k
      · subst h0
        rw [if_pos rfl]
        simp only [List.all_cons, Bool.and_eq_true]
        refine ⟨?_, h1.2⟩
        have he := h1.1
        simp only [entryWF, Bool.and_eq_true] at he ⊢
        refine ⟨⟨he.1.1, by simp⟩, ?_⟩
        simp only [List.all_append, Bool.and_eq_true]
        exact ⟨he.2, by simp [hu]⟩
      · rw [if_neg h0]
        simp only [List.all_cons, Bool.and_eq_true]
        exact ⟨h1.1, ih h1.2⟩

theorem pushVal_wf (hs : Headers) (k u : Text) (hhs : wfHeaders hs = true)
    (hk : wfName k = true) (hu : wfValue u = true) :
    wfHeaders (pushVal hs k u) = true := by
  unfold wfHeaders at hhs ⊢
  simp only [Bool.and_eq_true, decide_eq_true_eq] at hhs ⊢
  refine ⟨pushVal_all hs k u hhs.1 hk hu, ?_⟩
  rw [pushVal_keys]
  by_cases hmem : k ∈ hs.map Prod.fst
  · rw [if_pos hmem]
    exact hhs.2
  · rw [if_neg hmem]
    simp [List.nodup_append, hhs.2, hmem]

theorem finalizeHeader_wf (hs : Headers) (cur : Option (Text × List Text))
    (hhs : wfHeaders hs = true) (hc : wfCur cur) :
    wfHeaders (finalizeHeader hs cur) = true := by
  cases cur with
  | none => exact hhs
  | some f =>
    rcases hc with ⟨hn1, hn2, hf1, hf2, hf3⟩
    show wfHeaders (pushVal hs (lowerName f.1) (unfoldHeader (joinLines f.2)))
      = true
    refine pushVal_wf _ _ _ hhs ?_ ?_
    · simp only [wfName, Bool.and_eq_true, beq_iff_eq]
      refine ⟨⟨?_, lowerName_idem f.1⟩, ?_⟩
      · cases hfn : f.1
        · exact absurd hfn hn1
        · simp [lowerName, hfn]
      · simp only [List.all_eq_true, lowerName]
        intro c hc2
        rcases List.mem_map.1 hc2 with ⟨d, hd, hde⟩
        exact hde ▸ toLower_headerNameChar d (hn2 d hd)
    · cases hfrag : f.2 with
      | nil => exact absurd hfrag hf1
      | cons v cs =>
        refine wfValue_unfoldHeader _ ?_ ?_
        · refine nlOk_joinLines_frags cs v ?_ ?_
          · exact (hf2 v (by simp [hfrag])).1
          · intro l hl
            refine ⟨(hf2 l (by simp [hfrag, hl])).1, ?_⟩
            have : l ∈ f.2.tail := by rw [hfrag]; simpa using hl
            exact hf3 l this
        · intro hm
          rcases mem_joinLines _ _ hm with hm | ⟨l, hl, hcl⟩
          · exact absurd hm (by decide)
          · exact (hf2 l (by rw [hfrag]; exact hl)).2 hcl

theorem headerLoop_wf (ls : List Text) :
    ∀ (hs : Headers) (cur : Option (Text × List Text)),
    (∀ l ∈ ls, '\n' ∉ l ∧ '\r' ∉ l) → wfHeaders hs = true → wfCur cur →
    wfHeaders (headerLoop ls hs cur).1 = true := by
  induction ls with
  | nil => intro hs cur _ hhs _; exact hhs
  | cons l ls ih =>
    intro hs cur hlines hhs hc
    simp only [headerLoop]
    by_cases hbl : l = []
    · rw [if_pos hbl]
      exact finalizeHeader_wf hs cur hhs hc
    · rw [if_neg hbl]
      by_cases hht : startsHT l = true
      · rw [if_pos hht]
        refine ih hs _ (fun x hx => hlines x (by simp [hx])) hhs ?_
        cases cur with
        | none => trivial
        | some f =>
          rcases hc with ⟨hn1, hn2, hf1, hf2, hf3⟩
          refine ⟨hn1, hn2, by simp, ?_, ?_⟩
          · intro x hx
            rcases List.mem_append.1 hx with hx | hx
            · exact hf2 x hx
            · rw [List.mem_singleton] at hx
              subst hx
              exact hlines _ (by simp)
          · intro x hx
            have htail : (f.2 ++ [l]).tail = f.2.tail ++ [l] := by
              cases hfr : f.2
              · exact absurd hfr hf1
              · simp
            rw [htail] at hx
            rcases List.mem_append.1 hx with hx | hx
            · exact hf3 x hx
            · rw [List.mem_singleton] at hx
              subst hx
              exact hht
      · rw [if_neg hht]
        cases hm : headerMatch l with
        | some nv =>
          match nv with
          | (n, v) =>
            simp only
            rcases headerMatch_props l n v hm with ⟨hp1, hp2, hp3⟩
            refine ih _ _ (fun x hx => hlines x (by simp [hx]))
              (finalizeHeader_wf hs cur hhs hc) ?_
            refine ⟨hp1, hp2, by simp, ?_, by simp⟩
            intro x hx
            rw [List.mem_singleton] at hx
            subst hx
            constructor
            · intro hcm
              exact (hlines _ (by simp)).1 (hp3 _ hcm)
            · intro hcm
              exact (hlines _ (by simp)).2 (hp3 _ hcm)
        | none =>
          simp only
          exact ih hs cur (fun x hx => hlines x (by simp [hx])) hhs hc

theorem headerLoop_body_sub (ls : List Text) :
    ∀ (hs : Headers) (cur : Option (Text × List Text)) (bl : List Text),
    (headerLoop ls hs cur).2 = some bl → ∀ l ∈ bl, l ∈ ls := by
  induction ls with
  | nil => intro hs cur bl h; simp [headerLoop] at h
  | cons l ls ih =>
    intro hs cur bl h
    simp only [headerLoop] at h
    by_cases hbl : l = []
    · rw [if_pos hbl] at h
      simp only at h
      injection h with hbl2
      subst hbl2
      intro x hx
      simp [hx]
    · rw [if_neg hbl] at h
      by_cases hht : startsHT l = true
      · rw [if_pos hht] at h
        intro x hx
        simp [ih _ _ _ h x hx]
      · rw [if_neg hht] at h
        cases hm : headerMatch l with
        | some nv =>
          match nv with
          | (n, v) =>
            rw [hm] at h
            simp only at h
            intro x hx
            simp [ih _ _ _ h x hx]
        | none =>
          rw [hm] at h
          simp only at h
          intro x hx
          simp [ih _ _ _ h x hx]

theorem unescapeLine_subset (l : Text) (c : Char) (h : c ∈ unescapeLine l) :
    c ∈ l := by
  match l with
  | [] => simp [unescapeLine] at h
  | a :: t =>
    simp only [unescapeLine] at h
    split at h
    · simp [h]
    · exact h

theorem unescapeFromLines_no_cr (s : Text) (h : '\r' ∉ s) :
    '\r' ∉ unescapeFromLines s := by
  intro hm
  rcases mem_joinLines _ _ hm with hm | ⟨l, hl, hcl⟩
  · exact absurd hm (by decide)
  · rcases List.mem_map.1 hl with ⟨x, hx, hxe⟩
    subst hxe
    exact h (splitLines_chars s x hx '\r' (unescapeLine_subset x _ hcl))

theorem parseEmailLines_wf (lines : List Text)
    (h : ∀ l ∈ lines, '\n' ∉ l ∧ '\r' ∉ l) :
    wfEmail (parseEmailLines lines) = true := by
  unfold parseEmailLines wfEmail
  simp only [Bool.and_eq_true]
  constructor
  · exact headerLoop_wf _ [] none
      (fun l hl => h l (List.drop_subset _ lines hl)) rfl trivial
  · simp only [Bool.not_eq_true']
    have hbody : ∀ l ∈ (match (headerLoop
        (lines.drop (if isFromLine (lines.headD []) then 1 else 0)) [] none).2
        with
        | some rest => rest
        | none => lines.drop (if isFromLine (lines.headD []) then 1 else 0)),
        '\r' ∉ l := by
      cases hres : (headerLoop
          (lines.drop (if isFromLine (lines.headD []) then 1 else 0)) []
          none).2 with
      | some rest =>
        intro l hl
        exact (h l (List.drop_subset _ lines
          (headerLoop_body_sub _ [] none rest hres l hl))).2
      | none =>
        intro l hl
        exact (h l (List.drop_subset _ lines hl)).2
    have hcr : '\r' ∉ unescapeFromLines (joinLines _) :=
      unescapeFromLines_no_cr _ (by
        intro hm
        rcases mem_joinLines _ _ hm with hm | ⟨l, hl, hcl⟩
        · exact absurd hm (by decide)
        · exact hbody l hl hcl)
    simpa using hcr

theorem parseEmailChars_wf (raw : Text) : wfEmail (parseEmailChars raw) = true := by
  unfold parseEmailChars
  refine parseEmailLines_wf _ ?_
  intro l hl
  exact ⟨splitLines_no_newline _ l hl,
    fun hm => normalizeEOL_no_cr raw (splitLines_chars _ l hl '\r' hm)⟩

theorem isHT_jsSpace (c : Char) (h : isHT c = true) : jsSpace c = true := by
  simp only [isHT, Bool.or_eq_true, beq_iff_eq] at h
  rcases h with h | h <;> subst h <;> rfl

theorem wfName_chars_not_space (k : Text) (hk : wfName k = true) :
    ∀ c ∈ k, jsSpace c = false := by
  intro c hc
  simp only [wfName, Bool.and_eq_true, List.all_eq_true] at hk
  have := hk.2 c hc
  simp only [headerNameChar, Bool.and_eq_true, Bool.not_eq_true'] at this
  exact this.2

theorem wfName_head_not_F (k : Text) (hk : wfName k = true) (c : Char)
    (t : Text) (hkc : k = c :: t) : c ≠ 'F' := by
  intro hc
  subst hc
  simp only [wfName, Bool.and_eq_true, beq_iff_eq] at hk
  have := hk.1.2
  rw [hkc] at this
  simp only [lowerName, List.map_cons, List.cons.injEq] at this
  have hF : Char.toLower 'F' = 'f' := by decide
  rw [hF] at this
  exact absurd this.1 (by decide)

theorem takeWhile_all_append {p : Char → Bool} (k : Text)
    (hk : ∀ c ∈ k, p c = true) (a : Char) (ha : p a = false) (z : Text) :
    (k ++ a :: z).takeWhile p = k := by
  induction k with
  | nil => simp [List.takeWhile_cons, ha]
  | cons c t ih =>
    rw [List.cons_append, List.takeWhile_cons, if_pos (hk c (by simp))]
    rw [ih (fun d hd => hk d (by simp [hd]))]

theorem headerMatch_serial (k v : Text) (hk : wfName k = true)
    (hv : wfValue v = true) :
    headerMatch (k ++ ':' :: ' ' :: v) = some (k, v) := by
  have hkne : k ≠ [] := by
    simp only [wfName, Bool.and_eq_true] at hk
    simpa using hk.1.1
  have htw : (k ++ ':' :: ' ' :: v).takeWhile headerNameChar = k := by
    refine takeWhile_all_append k ?_ ':' (by decide) _
    intro c hc
    simp only [wfName, Bool.and_eq_true, List.all_eq_true] at hk
    exact hk.2 c hc
  unfold headerMatch
  rw [htw, List.drop_left]
  show (if k ≠ [] ∧ (':' : Char) = ':' then
    some (k, List.dropWhile jsSpace (' ' :: v)) else none) = some (k, v)
  rw [if_pos (show k ≠ [] ∧ (':' : Char) = ':' from ⟨hkne, rfl⟩)]
  rw [List.dropWhile_cons]
  rw [if_pos (show jsSpace ' ' = true by decide)]
  simp only [wfValue, Bool.and_eq_true, beq_iff_eq] at hv
  rw [hv.1.2]

theorem unfoldHeader_fix (v : Text) (hv : wfValue v = true) :
    unfoldHeader v = v := by
  simp only [wfValue, Bool.and_eq_true, beq_iff_eq, Bool.not_eq_true'] at hv
  have hnl : '\n' ∉ v := by simpa using hv.1.1.1
  have hcr : '\r' ∉ v := by simpa using hv.1.1.2
  unfold unfoldHeader
  rw [unfoldCore_clean v
    (fun c hc => ⟨fun he => hnl (he ▸ hc), fun he => hcr (he ▸ hc)⟩)]
  exact trimChars_eq_self v hv.1.2 hv.2

theorem serializeHeaderLines_eq (hs : Headers) :
    serializeHeaderLines hs = (pairsOf hs).map encHeaderLine := by
  unfold serializeHeaderLines pairsOf
  rw [List.map_flatMap]
  congr 1
  funext e
  rw [List.map_map]
  rfl

theorem wfHeaders_cons (e : Text × List Text) (t : Headers)
    (h : wfHeaders (e :: t) = true) :
    entryWF e = true ∧ wfHeaders t = true ∧ e.1 ∉ t.map Prod.fst := by
  unfold wfHeaders at h ⊢
  simp only [List.all_cons, List.map_cons, List.nodup_cons, Bool.and_eq_true,
    decide_eq_true_eq] at h ⊢
  exact ⟨h.1.1, ⟨h.1.2, h.2.2⟩, h.2.1⟩

theorem specFields_headerLines (ps : List (Text × Text))
    (h : ∀ p ∈ ps, startsHT (encHeaderLine p) = false ∧
      headerMatch (encHeaderLine p) = some p) :
    ∀ cur, specFields (ps.map encHeaderLine) cur =
      cur.toList ++ ps.map (fun p => (p.1, [p.2])) := by
  induction ps with
  | nil => intro cur; simp [specFields]
  | cons p ps ih =>
    intro cur
    match p with
    | (a, b) =>
      simp only [List.map_cons, specFields]
      rw [if_neg (by simp [(h (a, b) (by simp)).1])]
      rw [(h (a, b) (by simp)).2]
      show cur.toList ++ specFields (ps.map encHeaderLine) (some (a, [b])) = _
      rw [ih (fun q hq => h q (by simp [hq])) (some (a, [b]))]
      simp [Option.toList]

theorem buildFrom_cons_out (k : Text) (vs : List Text)
    (fs : List (Text × List Text)) (hf : ∀ f ∈ fs, lowerName f.1 ≠ k) :
    ∀ hs0 : Headers,
    buildFrom ((k, vs) :: hs0) fs = (k, vs) :: buildFrom hs0 fs := by
  induction fs with
  | nil => intro hs0; rfl
  | cons f fs ih =>
    intro hs0
    have hstep : buildFrom ((k, vs) :: hs0) (f :: fs) =
        buildFrom (addFieldPair ((k, vs) :: hs0) f) fs := rfl
    rw [hstep]
    have hpush : addFieldPair ((k, vs) :: hs0) f =
        (k, vs) :: addFieldPair hs0 f := by
      show pushVal ((k, vs) :: hs0) (lowerName f.1) (unfoldHeader (joinLines f.2))
        = (k, vs) :: pushVal hs0 (lowerName f.1) (unfoldHeader (joinLines f.2))
      simp only [pushVal]
      rw [if_neg (fun hc => hf f (by simp) hc.symm)]
    rw [hpush]
    exact ih (fun g hg => hf g (by simp [hg])) _

theorem buildVs (k : Text) (hk : wfName k = true) :
    ∀ (vs ws : List Text), (∀ v ∈ vs, wfValue v = true) →
    buildFrom [(k, ws)] (vs.map (fun v => (k, [v]))) = [(k, ws ++ vs)] := by
  intro vs
  induction vs with
  | nil => intro ws _; simp [buildFrom]
  | cons v vs ih =>
    intro ws hv
    simp only [List.map_cons]
    have hstep : buildFrom [(k, ws)] ((k, [v]) :: vs.map (fun v => (k, [v]))) =
        buildFrom (addFieldPair [(k, ws)] (k, [v])) (vs.map (fun v => (k, [v])))
      := rfl
    rw [hstep]
    have hpush : addFieldPair [(k, ws)] (k, [v]) = [(k, ws ++ [v])] := by
      show pushVal [(k, ws)] (lowerName k) (unfoldHeader (joinLines [v]))
        = [(k, ws ++ [v])]
      have hlk : lowerName k = k := by
        simp only [wfName, Bool.and_eq_true, beq_iff_eq] at hk
        exact hk.1.2
      have hjv : joinLines [v] = v := rfl
      rw [hlk, hjv, unfoldHeader_fix v (hv v (by simp))]
      simp [pushVal]
    rw [hpush]
    rw [ih (ws ++ [v]) (fun x hx => hv x (by simp [hx]))]
    simp

theorem pairsOf_key_mem (t : Headers) (p : Text × Text)
    (h : p ∈ pairsOf t) : p.1 ∈ t.map Prod.fst := by
  unfold pairsOf at h
  rcases List.mem_flatMap.1 h with ⟨e, he, hpe⟩
  rcases List.mem_map.1 hpe with ⟨v, hv, hve⟩
  subst hve
  exact List.mem_map.2 ⟨e, he, rfl⟩

theorem buildFrom_pairsOf (hs : Headers) (hwf : wfHeaders hs = true) :
    buildFrom [] ((pairsOf hs).map (fun p => (p.1, [p.2]))) = hs := by
  induction hs with
  | nil => rfl
  | cons e t ih =>
    match e with
    | (k, vs) =>
      rcases wfHeaders_cons (k, vs) t hwf with ⟨hew, htw, hnk⟩
      simp only [entryWF, Bool.and_eq_true, Bool.not_eq_true',
        List.all_eq_true] at hew
      rw [show pairsOf ((k, vs) :: t) =
          vs.map (fun v => ((k, vs).1, v)) ++ pairsOf t from by
        unfold pairsOf
        rw [List.flatMap_cons]]
      rw [List.map_append, buildFrom_append]
      have h1 : buildFrom []
          (((vs.map (fun v => ((k, vs).1, v))).map (fun p => (p.1, [p.2]))))
          = [(k, vs)] := by
        rw [List.map_map]
        have : ((fun p : Text × Text => (p.1, [p.2])) ∘ fun v => ((k, vs).1, v))
            = fun v => (k, [v]) := rfl
        rw [this]
        cases hvs : vs with
        | nil =>
          exfalso
          rw [hvs] at hew
          exact absurd hew.1.2 (by simp)
        | cons v0 vrest =>
          simp only [List.map_cons]
          have hstep : buildFrom [] ((k, [v0]) ::
              vrest.map (fun v => (k, [v]))) =
              buildFrom (addFieldPair [] (k, [v0]))
                (vrest.map (fun v => (k, [v]))) := rfl
          rw [hstep]
          have hpush : addFieldPair [] (k, [v0]) = [(k, [v0])] := by
            show pushVal [] (lowerName k) (unfoldHeader (joinLines [v0]))
              = [(k, [v0])]
            have hlk : lowerName k = k := by
              have := hew.1.1
              simp only [wfName, Bool.and_eq_true, beq_iff_eq] at this
              exact this.1.2
            rw [hlk, show joinLines [v0] = v0 from rfl,
              unfoldHeader_fix v0 (hew.2 v0 (by rw [hvs]; simp))]
            rfl
          rw [hpush]
          rw [buildVs k hew.1.1 vrest [v0]
            (fun x hx => hew.2 x (by rw [hvs]; simp [hx]))]
          simp
      rw [h1]
      have h2 : ∀ f ∈ (pairsOf t).map (fun p : Text × Text => (p.1, [p.2])),
          lowerName f.1 ≠ k := by
        intro f hf
        rcases List.mem_map.1 hf with ⟨p, hp, hpe⟩
        subst hpe
        have hkey := pairsOf_key_mem t p hp
        intro hc
        have hlp : lowerName p.1 = p.1 := by
          unfold wfHeaders at htw
          simp only [Bool.and_eq_true, List.all_eq_true] at htw
          rcases List.mem_map.1 hkey with ⟨e2, he2, he2e⟩
          have := htw.1 e2 he2
          simp only [entryWF, wfName, Bool.and_eq_true, beq_iff_eq] at this
          rw [← he2e]
          exact this.1.1.1.2
        rw [hlp] at hc
        rw [hc] at hkey
        exact hnk hkey
      rw [buildFrom_cons_out k vs _ h2]
      rw [ih htw]

theorem isFromLine_escapeLine (l : Text) :
    isFromLine (escapeLine l) = false := by
  unfold escapeLine
  split
  · simp [isFromLine, fromMark, List.isPrefixOf]
  · rename_i h
    cases hf : isFromLine l with
    | false => rfl
    | true =>
      exfalso
      simp only [isFromLine, Bool.and_eq_true] at hf
      exact h (startsFromAfterGt_of_mark l hf.1)

theorem splitLoop_single (ls : List Text) :
    ∀ (prev : Option Text) (cur : List Text), cur ≠ [] →
    (∀ l ∈ ls, isFromLine l = false) →
    splitLoop prev cur true ls = [cur ++ ls] := by
  induction ls with
  | nil =>
    intro prev cur hcur _
    simp only [splitLoop]
    rw [if_neg (by simpa using hcur)]
    simp
  | cons l ls ih =>
    intro prev cur hcur hfl
    simp only [splitLoop]
    rw [if_neg (by
      rw [delimCheck_eq]
      simp [hfl l (by simp)])]
    show splitLoop (some l) (cur ++ [l]) true ls = [cur ++ l :: ls]
    rw [ih (some l) (cur ++ [l]) (by simp) (fun x hx => hfl x (by simp [hx]))]
    simp

theorem splitMBOXLines_single (d : Text) (rest : List Text)
    (hd : isFromLine d = true) (hrest : ∀ l ∈ rest, isFromLine l = false) :
    splitMBOXLines (d :: rest) = [d :: rest] := by
  unfold splitMBOXLines
  rw [show splitLoop none [] false (d :: rest) =
      if delimCheck d none then
        (if List.isEmpty [] then [] else [[]]) ++ splitLoop (some d) [d] true rest
      else if false then splitLoop (some d) ([] ++ [d]) true rest
      else splitLoop (some d) [] false rest from rfl]
  rw [if_pos (by rw [delimCheck_eq]; simp [hd, prevBoundary])]
  rw [splitLoop_single rest (some d) [d] (by simp) hrest]
  simp

theorem not_jsSpace_ne (c : Char) (h : jsSpace c = false) :
    c ≠ '\n' ∧ c ≠ '\r' := by
  constructor <;> intro hc <;> subst hc <;> simp [jsSpace] at h

theorem isFromLine_head_ne (c : Char) (t : Text) (h : c ≠ 'F') :
    isFromLine (c :: t) = false := by
  unfold isFromLine
  rw [show fromMark.isPrefixOf (c :: t) =
      (('F' == c) && (['r', 'o', 'm', ' '] : Text).isPrefixOf t) from rfl]
  rw [show ('F' == c) = false from by
    rw [beq_eq_false_iff_ne]
    exact fun hc => h hc.symm]
  rfl

theorem escapeLine_mem (l : Text) (c : Char) (h : c ∈ escapeLine l) :
    c = '>' ∨ c ∈ l := by
  unfold escapeLine at h
  split at h
  · rcases List.mem_cons.1 h with h | h
    · exact Or.inl h
    · exact Or.inr h
  · exact Or.inr h

theorem pairsOf_wf (hs : Headers) (hwf : wfHeaders hs = true) :
    ∀ p ∈ pairsOf hs, wfName p.1 = true ∧ wfValue p.2 = true := by
  intro p hp
  unfold pairsOf at hp
  rcases List.mem_flatMap.1 hp with ⟨e, he, hpe⟩
  rcases List.mem_map.1 hpe with ⟨v, hv, hve⟩
  subst hve
  unfold wfHeaders at hwf
  simp only [Bool.and_eq_true, List.all_eq_true] at hwf
  have := hwf.1 e he
  simp only [entryWF, Bool.and_eq_true, List.all_eq_true] at this
  exact ⟨this.1.1, this.2 v hv⟩

theorem enc_props (p : Text × Text) (hp1 : wfName p.1 = true)
    (hp2 : wfValue p.2 = true) :
    encHeaderLine p ≠ [] ∧ startsHT (encHeaderLine p) = false ∧
      headerMatch (encHeaderLine p) = some p ∧
      isFromLine (encHeaderLine p) = false ∧
      '\n' ∉ encHeaderLine p ∧ '\r' ∉ encHeaderLine p := by
  have hne : p.1 ≠ [] := by
    simp only [wfName, Bool.and_eq_true] at hp1
    simpa using hp1.1.1
  rcases hhead : p.1 with _ | ⟨c, t⟩
  · exact absurd hhead hne
  have hcname : headerNameChar c = true := by
    simp only [wfName, Bool.and_eq_true, List.all_eq_true] at hp1
    exact hp1.2 c (by rw [hhead]; simp)
  have hcns : jsSpace c = false := by
    simp only [headerNameChar, Bool.and_eq_true, Bool.not_eq_true'] at hcname
    exact hcname.2
  have henc : encHeaderLine p = c :: (t ++ ':' :: ' ' :: p.2) := by
    unfold encHeaderLine
    rw [hhead]
    rfl
  refine ⟨by rw [henc]; simp, ?_, ?_, ?_, ?_, ?_⟩
  · rw [henc]
    simp only [startsHT]
    cases hht : isHT c with
    | false => rfl
    | true => exact absurd (isHT_jsSpace c hht) (by simp [hcns])
  · have := headerMatch_serial p.1 p.2 hp1 hp2
    unfold encHeaderLine
    simpa using this
  · rw [henc]
    exact isFromLine_head_ne c _ (wfName_head_not_F p.1 hp1 c t hhead)
  · intro hm
    unfold encHeaderLine at hm
    rcases List.mem_append.1 hm with hm | hm
    · have := wfName_chars_not_space p.1 hp1 '\n' hm
      simp [jsSpace] at this
    · rcases List.mem_cons.1 hm with hm | hm
      · exact absurd hm.symm (by decide)
      · rcases List.mem_cons.1 hm with hm | hm
        · exact absurd hm.symm (by decide)
        · simp only [wfValue, Bool.and_eq_true, Bool.not_eq_true'] at hp2
          exact absurd hm (by simpa using hp2.1.1.1)
  · intro hm
    unfold encHeaderLine at hm
    rcases List.mem_append.1 hm with hm | hm
    · have := wfName_chars_not_space p.1 hp1 '\r' hm
      simp [jsSpace] at this
    · rcases List.mem_cons.1 hm with hm | hm
      · exact absurd hm.symm (by decide)
      · rcases List.mem_cons.1 hm with hm | hm
        · exact absurd hm.symm (by decide)
        · simp only [wfValue, Bool.and_eq_true, Bool.not_eq_true'] at hp2
          exact absurd hm (by simpa using hp2.1.1.2)

theorem parse_exportOne (m : EmailM) (hwf : wfEmail m = true) :
    (parseModel (exportOne m)).emails.map (fun m2 => (m2.headers, m2.bodyText))
      = [(m.headers, m.bodyText)] := by
  have hwf2 : wfHeaders m.headers = true ∧ (!m.bodyText.contains '\r') = true := by
    unfold wfEmail at hwf
    rw [Bool.and_eq_true] at hwf
    exact hwf
  have hwH : wfHeaders m.headers = true := hwf2.1
  have hwB : '\r' ∉ m.bodyText := by simpa using hwf2.2
  have hpairs := pairsOf_wf m.headers hwH
  -- facts about the serialized header lines
  have hser : ∀ x ∈ serializeHeaderLines m.headers,
      x ≠ [] ∧ startsHT x = false ∧ isFromLine x = false ∧
        '\n' ∉ x ∧ '\r' ∉ x := by
    intro x hx
    rw [serializeHeaderLines_eq] at hx
    rcases List.mem_map.1 hx with ⟨p, hp, hpe⟩
    subst hpe
    rcases enc_props p (hpairs p hp).1 (hpairs p hp).2 with
      ⟨h1, h2, _, h4, h5, h6⟩
    exact ⟨h1, h2, h4, h5, h6⟩
  -- facts about the escaped body lines
  have hesc : ∀ x ∈ (splitLines m.bodyText).map escapeLine,
      isFromLine x = false ∧ '\n' ∉ x ∧ '\r' ∉ x := by
    intro x hx
    rcases List.mem_map.1 hx with ⟨y, hy, hye⟩
    subst hye
    refine ⟨isFromLine_escapeLine y, escapeLine_no_nl y
      (splitLines_no_newline _ y hy), ?_⟩
    intro hm
    rcases escapeLine_mem y '\r' hm with hm | hm
    · exact absurd hm (by decide)
    · exact hwB (splitLines_chars _ y hy '\r' hm)
  have hLnl : ∀ l ∈ synthDelim ::
      (serializeHeaderLines m.headers ++
        [] :: (splitLines m.bodyText).map escapeLine), '\n' ∉ l := by
    intro l hl
    rcases List.mem_cons.1 hl with hl | hl
    · subst hl; decide
    · rcases List.mem_append.1 hl with hl | hl
      · exact (hser l hl).2.2.2.1
      · rcases List.mem_cons.1 hl with hl | hl
        · subst hl; simp
        · exact (hesc l hl).2.1
  have hLcr : ∀ l ∈ synthDelim ::
      (serializeHeaderLines m.headers ++
        [] :: (splitLines m.bodyText).map escapeLine), '\r' ∉ l := by
    intro l hl
    rcases List.mem_cons.1 hl with hl | hl
    · subst hl; decide
    · rcases List.mem_append.1 hl with hl | hl
      · exact (hser l hl).2.2.2.2
      · rcases List.mem_cons.1 hl with hl | hl
        · subst hl; simp
        · exact (hesc l hl).2.2
  -- the exported container normalizes and splits back to its line list
  have hnorm : normalizeEOL (exportOne m) = exportOne m := by
    refine normalizeEOL_eq_self _ ?_
    intro hm
    unfold exportOne at hm
    rcases mem_joinLines _ _ hm with hm | ⟨l, hl, hcl⟩
    · exact absurd hm (by decide)
    · exact hLcr l hl hcl
  have hsplit : splitLines (exportOne m) = synthDelim ::
      (serializeHeaderLines m.headers ++
        [] :: (splitLines m.bodyText).map escapeLine) := by
    unfold exportOne
    exact splitLines_joinLines _ (by simp) hLnl
  -- the framer finds exactly one record
  have hframe : splitMBOXLines (splitLines (normalizeEOL (exportOne m))) =
      [synthDelim :: (serializeHeaderLines m.headers ++
        [] :: (splitLines m.bodyText).map escapeLine)] := by
    rw [hnorm, hsplit]
    refine splitMBOXLines_single _ _ (by decide) ?_
    intro l hl
    rcases List.mem_append.1 hl with hl | hl
    · exact (hser l hl).2.2.1
    · rcases List.mem_cons.1 hl with hl | hl
      · subst hl; decide
      · exact (hesc l hl).1
  -- the single record re-parses to the original headers and body
  have hrecord : parseEmailChars (joinLines (synthDelim ::
      (serializeHeaderLines m.headers ++
        [] :: (splitLines m.bodyText).map escapeLine))) =
      parseEmailLines (synthDelim ::
        (serializeHeaderLines m.headers ++
          [] :: (splitLines m.bodyText).map escapeLine)) := by
    unfold parseEmailChars
    rw [normalizeEOL_eq_self _ (by
      intro hm
      rcases mem_joinLines _ _ hm with hm | ⟨l, hl, hcl⟩
      · exact absurd hm (by decide)
      · exact hLcr l hl hcl)]
    rw [splitLines_joinLines _ (by simp) hLnl]
  have hparse : parseEmailLines (synthDelim ::
      (serializeHeaderLines m.headers ++
        [] :: (splitLines m.bodyText).map escapeLine)) =
      { headers := buildFrom []
          (specFields (serializeHeaderLines m.headers) none)
        bodyText := unescapeFromLines
          (joinLines ((splitLines m.bodyText).map escapeLine))
        bodyRaw := joinLines ((splitLines m.bodyText).map escapeLine) } := by
    refine parseEmailLines_delim_blank _ _ _ (by decide) ?_
    intro hm
    exact (hser [] hm).1 rfl
  have hheads : buildFrom []
      (specFields (serializeHeaderLines m.headers) none) = m.headers := by
    rw [serializeHeaderLines_eq]
    rw [specFields_headerLines (pairsOf m.headers)
      (fun p hp => ⟨(enc_props p (hpairs p hp).1 (hpairs p hp).2).2.1,
        (enc_props p (hpairs p hp).1 (hpairs p hp).2).2.2.1⟩) none]
    simp only [Option.toList, List.nil_append]
    exact buildFrom_pairsOf m.headers hwH
  have hbody : unescapeFromLines
      (joinLines ((splitLines m.bodyText).map escapeLine)) = m.bodyText := by
    have : joinLines ((splitLines m.bodyText).map escapeLine) =
        escapeFromLines m.bodyText := rfl
    rw [this]
    exact unescape_escape_text m.bodyText
  -- assemble
  unfold parseModel splitMBOX
  simp only
  rw [hframe]
  simp only [List.map_cons, List.map_nil]
  rw [hrecord, hparse]
  simp only [List.map_cons, List.map_nil]
  rw [hheads, hbody]

/-- C1 (amended): for every container and every Message parsed from it,
exporting that Message alone (spec-modelled Export Encoder, no overlay
edits) and re-parsing with the same engine yields exactly one Message
whose header table and body text equal the original's.  (As frozen over a
whole multi-message container the claim fails — see the counterexample:
the blank-line record separator is absorbed into the preceding record on
re-parse, appending a newline to each non-final message's body.) -/
theorem C1_roundtrip_single_export (X : Text) (m : EmailM)
    (hm : m ∈ (parseModel X).emails) :
    (parseModel (exportMBOX [m])).emails.map
      (fun m2 => (m2.headers, m2.bodyText)) = [(m.headers, m.bodyText)] := by
  have hwf : wfEmail m = true := by
    have hm2 : m ∈ (splitMBOX X).map parseEmailChars := hm
    rcases List.mem_map.1 hm2 with ⟨r, _, hre⟩
    exact hre ▸ parseEmailChars_wf r
  have hone : exportMBOX [m] = exportOne m := rfl
  rw [hone]
  exact parse_exportOne m hwf

/-- Witness for C1 at a concrete one-message container. -/
theorem C1_witness :
    (parseModel sampleC1).emails.getD 0 defaultEmail ∈
      (parseModel sampleC1).emails ∧
    (parseModel (exportMBOX
        [(parseModel sampleC1).emails.getD 0 defaultEmail])).emails.map
      (fun m2 => (m2.headers, m2.bodyText)) =
      [(((parseModel sampleC1).emails.getD 0 defaultEmail).headers,
        ((parseModel sampleC1).emails.getD 0 defaultEmail).bodyText)] :=
  ⟨by decide, C1_roundtrip_single_export sampleC1 _ (by decide)⟩

/-- Counterexample to C1 as frozen: exporting both Messages of a
two-message container and re-parsing does not reproduce the first
Message's body text (it gains a trailing newline from the record
separator). -/
theorem C1_counterexample :
    (parseModel sampleC1x).emails.length = 2 ∧
    ((parseModel (exportMBOX (parseModel sampleC1x).emails)).emails.getD 0
      defaultEmail).bodyText ≠
    ((parseModel sampleC1x).emails.getD 0 defaultEmail).bodyText := by
  decide

/-- C2 (amended): decode after encode is the identity on all body texts;
encode after decode is the identity on body texts none of whose lines
starts with an unescaped `"From "` (i.e. on MBOX-well-formed bodies).
(As frozen — both equations for every body text — the claim fails, see
the counterexample.) -/
theorem C2_escape_codec (s : Text) :
    unescapeFromLines (escapeFromLines s) = s ∧
    ((∀ l ∈ splitLines s, fromMark.isPrefixOf l = false) →
      escapeFromLines (unescapeFromLines s) = s) :=
  ⟨unescape_escape_text s, escape_unescape_text s⟩

/-- Witness for C2 at a concrete escaped body. -/
theorem C2_witness :
    (∀ l ∈ splitLines sampleC2, fromMark.isPrefixOf l = false) ∧
    unescapeFromLines (escapeFromLines sampleC2) = sampleC2 ∧
    escapeFromLines (unescapeFromLines sampleC2) = sampleC2 :=
  ⟨by decide, (C2_escape_codec sampleC2).1,
    (C2_escape_codec sampleC2).2 (by decide)⟩

/-- Counterexample to C2 as frozen: a body line starting with an
unescaped `"From "` is not a fixed point of encode after decode. -/
theorem C2_counterexample :
    escapeFromLines (unescapeFromLines ("From x".toList)) ≠
      "From x".toList := by
  decide

/-- C3 (confirmed): the framer classifies a line as a record delimiter
iff it matches `"From "` + a non-whitespace token + trailing content and
is the first line or immediately preceded by a blank line; every other
line is appended to the currently open record (none is open before the
first delimiter).  `specFrame` is the scan written from the claim's
words; `splitMBOXLines` is the source's loop. -/
theorem C3_framer_classification (lines : List Text) :
    splitMBOXLines lines = specFrame lines := by
  unfold specFrame
  have h := splitLoop_eq_specScan lines none [] false (by simp)
  simpa [prevBoundary] using h

/-- C4 (confirmed): in a blank-line-terminated header block, the value
list stored under any (lowercased) name is exactly the unfolded values of
that name's header fields, in source order — N occurrences yield N
entries in order. -/
theorem C4_header_multiplicity (d : Text) (hl bl : List Text) (k : Text)
    (hd : isFromLine d = true) (hnb : [] ∉ hl) :
    lookupVals (parseEmailLines (d :: (hl ++ [] :: bl))).headers k =
      ((specFields hl none).filter (fun f => lowerName f.1 == k)).map
        (fun f => unfoldHeader (joinLines f.2)) := by
  rw [parseEmailLines_delim_blank d hl bl hd hnb]
  simp only
  rw [lookupVals_buildFrom]
  simp [lookupVals]

/-- Witness for C4: three Received lines yield three entries in source
order. -/
theorem C4_witness :
    isFromLine ("From a@b x".toList) = true ∧ [] ∉ sampleC4 ∧
    lookupVals (parseEmailLines ("From a@b x".toList ::
        (sampleC4 ++ [] :: ["body".toList]))).headers ("received".toList) =
      ["a".toList, "b".toList, "c".toList] :=
  ⟨by decide, by decide, by
    rw [C4_header_multiplicity _ _ _ _ (by decide) (by decide)]
    decide⟩

/-- C5 (code bug): at a record whose header block contains a line with
no colon, the parser does skip the line and still produces the Message
with the other valid headers — but it records NO error at all: the error
list stays empty, although the source declares the `MALFORMED_HEADER`
error type and the spec requires one recoverable MalformedHeader error.
This theorem evaluates the code at the failing input. -/
theorem C5_malformed_header_no_error :
    (parseModel sampleC5).errors = [] ∧
    (parseModel sampleC5).emails.length = 1 ∧
    lookupVals ((parseModel sampleC5).emails.getD 0 defaultEmail).headers
      ("subject".toList) = ["ok".toList] ∧
    lookupVals ((parseModel sampleC5).emails.getD 0 defaultEmail).headers
      ("x-other".toList) = ["v".toList] ∧
    lookupVals ((parseModel sampleC5).emails.getD 0 defaultEmail).headers
      ("nocolon".toList) = [] := by
  decide

/-- C6 (amended): the framer's records together contain exactly the
lines from the first delimiter onward: content before the first
delimiter is discarded entirely — not recovered as a malformed record —
while parsing continues from the first delimiter rather than aborting.
(As frozen — leading content recovered as a record — the claim fails,
see the counterexample.) -/
theorem C6_leading_content_discarded (lines : List Text) :
    (splitMBOXLines lines).flatten = dropToDelim none lines :=
  splitLoop_flatten_closed lines none

/-- Counterexample to C6 as frozen: a container whose first line is not
a delimiter yields one record that starts at the delimiter; the leading
content appears in no record and no error is reported. -/
theorem C6_counterexample :
    splitMBOX sampleC6 = ["From a@b x\nSubject: s\n\nbody".toList] ∧
    (parseModel sampleC6).emails.length = 1 ∧
    (parseModel sampleC6).errors = [] := by
  decide

/-- C7 (confirmed): for every input, the number of parsed Messages plus
the number of critical parse failures equals the number of delimiter-line
matches the framer finds (counted with the framer's own check).  In this
code the error list is always empty and every record parses, so both
sides equal the record count. -/
theorem C7_record_count (X : Text) :
    (parseModel X).emails.length +
      ((parseModel X).errors.filter (fun e => e == ErrKind.critical)).length
      = countDelims none (splitLines (normalizeEOL X)) := by
  have h1 : (parseModel X).errors = [] := rfl
  have h2 : (parseModel X).emails.length =
      (splitMBOXLines (splitLines (normalizeEOL X))).length := by
    show ((splitMBOX X).map parseEmailChars).length = _
    rw [List.length_map]
    unfold splitMBOX
    rw [List.length_map]
  rw [h1, h2]
  simp only [List.filter_nil, List.length_nil, Nat.add_zero]
  have h3 := splitLoop_length (splitLines (normalizeEOL X)) none [] false
    (by simp)
  simpa using h3

/-- C8 (confirmed): a field value built from a first fragment and
space/tab-led continuation fragments unfolds to a single string with no
embedded line breaks, the fragments joined by single spaces with each
continuation's leading whitespace collapsed to nothing (then trimmed at
the ends, as the source's `.trim()` does). -/
theorem C8_unfolding (v : Text) (conts : List (Text × Text))
    (hv : '\n' ∉ v ∧ '\r' ∉ v)
    (hc : ∀ p ∈ conts, p.1 ≠ [] ∧ (∀ c ∈ p.1, isHT c = true) ∧
      ('\n' ∉ p.2 ∧ '\r' ∉ p.2) ∧ startsHT p.2 = false) :
    unfoldHeader (joinLines (v :: conts.map (fun p => p.1 ++ p.2)))
      = trimChars (joinWithSpace (v :: conts.map Prod.snd)) ∧
    '\n' ∉ unfoldHeader (joinLines (v :: conts.map (fun p => p.1 ++ p.2)))
    := by
  have hv2 : ∀ c ∈ v, c ≠ '\n' ∧ c ≠ '\r' :=
    fun c hcm => ⟨fun he => hv.1 (he ▸ hcm), fun he => hv.2 (he ▸ hcm)⟩
  have hc2 : ∀ p ∈ conts, p.1 ≠ [] ∧ (∀ c ∈ p.1, isHT c = true) ∧
      (∀ c ∈ p.2, c ≠ '\n' ∧ c ≠ '\r') ∧ startsHT p.2 = false := by
    intro p hp
    rcases hc p hp with ⟨h1, h2, ⟨h3, h4⟩, h5⟩
    exact ⟨h1, h2,
      fun c hcm => ⟨fun he => h3 (he ▸ hcm), fun he => h4 (he ▸ hcm)⟩, h5⟩
  constructor
  · unfold unfoldHeader
    rw [unfoldCore_join conts v hv2 hc2]
  · intro hm
    unfold unfoldHeader at hm
    have hnl : nlOk (joinLines (v :: conts.map (fun p => p.1 ++ p.2)))
        = true := by
      refine nlOk_joinLines_frags _ v hv.1 ?_
      intro l hl
      rcases List.mem_map.1 hl with ⟨p, hp, hpe⟩
      subst hpe
      rcases hc2 p hp with ⟨h1, h2, h3, _⟩
      constructor
      · intro hmm
        rcases List.mem_append.1 hmm with hmm | hmm
        · have hbad := h2 _ hmm
          simp [isHT] at hbad
        · exact (h3 _ hmm).1 rfl
      · cases hp1 : p.1 with
        | nil => exact absurd hp1 h1
        | cons a w =>
          simpa [startsHT] using h2 a (by rw [hp1]; simp)
    exact unfoldCore_no_nl false _ hnl (mem_trimChars _ _ hm)

/-- Witness for C8: a Subject-style value with two indented continuation
fragments unfolds to the fragments joined by single spaces. -/
theorem C8_witness :
    ('\n' ∉ ("A".toList : Text) ∧ '\r' ∉ ("A".toList : Text)) ∧
    (∀ p ∈ sampleC8conts, p.1 ≠ [] ∧ (∀ c ∈ p.1, isHT c = true) ∧
      ('\n' ∉ p.2 ∧ '\r' ∉ p.2) ∧ startsHT p.2 = false) ∧
    unfoldHeader (joinLines ("A".toList ::
        sampleC8conts.map (fun p => p.1 ++ p.2))) =
      trimChars (joinWithSpace ("A".toList :: sampleC8conts.map Prod.snd)) ∧
    unfoldHeader (joinLines ("A".toList ::
        sampleC8conts.map (fun p => p.1 ++ p.2))) = "A B C".toList ∧
    '\n' ∉ unfoldHeader (joinLines ("A".toList ::
        sampleC8conts.map (fun p => p.1 ++ p.2))) :=
  ⟨by decide, by decide,
    (C8_unfolding "A".toList sampleC8conts (by decide) (by decide)).1,
    by decide,
    (C8_unfolding "A".toList sampleC8conts (by decide) (by decide)).2⟩

/-- C9 (code bug): `avgEmailSize` is computed as the unguarded division
`totalBytes / parsedEmails.length`; when no email parses the division is
still performed, yielding NaN for an empty container and Infinity for a
nonempty one — not an explicitly handled defined value.  This theorem
evaluates the code at the failing inputs. -/
theorem C9_div_by_zero :
    (parseModel ("".toList)).stats.totalEmails = 0 ∧
    (parseModel ("".toList)).stats.avgEmailSize = JSNum.nan ∧
    (parseModel ("no delimiters here".toList)).stats.totalEmails = 0 ∧
    (parseModel ("no delimiters here".toList)).stats.avgEmailSize =
      JSNum.posInf := by
  decide

/-- C10 (confirmed): for a record with no blank line after the delimiter
line, the body offset never advances, so the raw body is all lines after
the delimiter (header lines included) and the header table holds only
the fields finalized by a later field start — the final in-progress
field is never finalized (`specFieldsNB` drops it). -/
theorem C10_no_blank_line (d : Text) (rest : List Text)
    (hd : isFromLine d = true) (hnb : [] ∉ rest) :
    (parseEmailLines (d :: rest)).bodyRaw = joinLines rest ∧
    (parseEmailLines (d :: rest)).bodyText =
      unescapeFromLines (joinLines rest) ∧
    (parseEmailLines (d :: rest)).headers =
      buildFrom [] (specFieldsNB rest none) := by
  rw [parseEmailLines_delim_noblank d rest hd hnb]
  exact ⟨rfl, rfl, rfl⟩

/-- Witness for C10: with no blank line, `X-Last` never reaches the
table while `Subject` (finalized when `X-Last` starts) does, and the raw
body is the two header lines themselves. -/
theorem C10_witness :
    isFromLine ("From a@b x".toList) = true ∧ [] ∉ sampleC10 ∧
    (parseEmailLines ("From a@b x".toList :: sampleC10)).bodyRaw =
      "Subject: hi\nX-Last: v".toList ∧
    (parseEmailLines ("From a@b x".toList :: sampleC10)).headers =
      [("subject".toList, ["hi".toList])] :=
  ⟨by decide, by decide,
    by
      rw [(C10_no_blank_line _ _ (by decide) (by decide)).1]
      decide,
    by
      rw [(C10_no_blank_line _ _ (by decide) (by decide)).2.2]
      decide⟩

end EAMA
